import Mathlib

/-!
Verification development for the dynamic routing core of the
PathFinding_IT3150_HUST application (`src/app/main_window.py`).

The embedding below translates the routing-relevant state and operations of
`MainWindow` into Lean:

* Edge weights are Python floats that are either finite or `float('inf')`;
  they are modelled exactly by the type `EW` over the rationals.
* The `networkx.DiGraph` owned by the `Pathfinding` engine is modelled as a
  `Graph`: a node list plus an association list from directed edge keys to
  weights.  `graph[u][v]['weight'] = w` is `Graph.setW`, `add_edge` is
  `Graph.addEdgeG`, `remove_node` is `Graph.removeNodeG`, membership
  `node in graph` is membership in `Graph.nodes`.
* `Pathfinding.modify_edge_weight` and `Pathfinding.find_edges_near_line`
  live in `src/app/pathfinding.py`, which is not part of the provided
  sources; they are modelled from the specification (see the doc comments
  on `Graph.addWq` / `Graph.setW` and `findEdgesNearLine`).
* Distances are compared squared, which is equivalent to the source's
  `sqrt`-based comparison against a non-negative threshold.
-/

/-- Edge weight: a Python float that is either finite or `float('inf')`.
Finite values are modelled by rationals. -/
inductive EW where
  | fin : ℚ → EW
  | inf : EW
deriving DecidableEq, Repr

/-- Python `w + d` for a float weight `w` and a finite float `d`:
`inf + d` is `inf` for every finite `d` (also negative `d`). -/
def EW.addQ : EW → ℚ → EW
  | EW.inf, _ => EW.inf
  | EW.fin w, d => EW.fin (w + d)

/-- Python `a + b` on two float weights (neither is ever `-inf` here). -/
def EW.addE : EW → EW → EW
  | EW.inf, _ => EW.inf
  | EW.fin _, EW.inf => EW.inf
  | EW.fin a, EW.fin b => EW.fin (a + b)

/-- Python `w * r` for a weight and a finite positive ratio. -/
def EW.scale : EW → ℚ → EW
  | EW.inf, _ => EW.inf
  | EW.fin w, r => EW.fin (w * r)

/-- Python `a < b` on float weights (`inf < inf` is `False`). -/
def EW.blt : EW → EW → Bool
  | EW.fin a, EW.fin b => decide (a < b)
  | EW.fin _, EW.inf => true
  | EW.inf, _ => false

theorem EW.blt_irrefl (a : EW) : EW.blt a a = false := by
  cases a <;> simp [EW.blt]

theorem EW.blt_inf_right {a : EW} : EW.blt a EW.inf = true ↔ a ≠ EW.inf := by
  cases a <;> simp [EW.blt]

theorem EW.blt_inf_left (a : EW) : EW.blt EW.inf a = false := rfl

theorem EW.blt_trans {a b c : EW} (h1 : EW.blt a b = true) (h2 : EW.blt b c = true) :
    EW.blt a c = true := by
  cases a <;> cases b <;> cases c <;> simp [EW.blt] at * <;> linarith

theorem EW.blt_of_blt_of_not_blt {a b c : EW} (h1 : EW.blt a b = true)
    (h2 : EW.blt c b = false) : EW.blt a c = true := by
  cases a <;> cases b <;> cases c <;> simp [EW.blt] at * <;> linarith

theorem EW.eq_inf_of_not_blt_inf {a : EW} (h : EW.blt a EW.inf = false) : a = EW.inf := by
  cases a <;> simp [EW.blt] at *

/-- Directed edge key: the pair `(u, v)` of node identifiers. -/
abbrev EdgeKey := String × String

/-- The directed weighted graph owned by the `Pathfinding` engine
(a `networkx.DiGraph`): node identifiers plus an association list from
directed edge keys to weights.  Node `pos` attributes are tracked
separately (as the source tracks `self.node_positions`). -/
structure Graph where
  nodes : List String
  edges : List (EdgeKey × EW)
deriving DecidableEq, Repr

/-- First-match lookup in an edge association list. -/
def lookupL : List (EdgeKey × EW) → EdgeKey → Option EW
  | [], _ => none
  | p :: rest, k => if p.1 = k then some p.2 else lookupL rest k

/-- Pointwise update of every entry with key `k`. -/
def modifyL (l : List (EdgeKey × EW)) (k : EdgeKey) (f : EW → EW) : List (EdgeKey × EW) :=
  l.map (fun p => if p.1 = k then (p.1, f p.2) else p)

/-- The list of directed edge keys of the graph. -/
def keysG (g : Graph) : List EdgeKey := g.edges.map (fun p => p.1)

/-- Current weight of edge `k`, `none` when the edge is absent
(`graph[u][v]['weight']`). -/
def Graph.lookupW (g : Graph) (k : EdgeKey) : Option EW := lookupL g.edges k

/-- Update the weight of edge `k` by `f` when present; no-op when absent. -/
def Graph.modifyW (g : Graph) (k : EdgeKey) (f : EW → EW) : Graph :=
  { g with edges := modifyL g.edges k f }

/-- Modelled from the spec: `Pathfinding.modify_edge_weight(u, v, set_weight=w)`
(the method lives in `src/app/pathfinding.py`, outside the provided sources);
per §4.1 `setWeight(u, v, weight)` overwrites the live weight of an existing
edge.  Also models the direct assignment `graph[u][v]['weight'] = w`. -/
def Graph.setW (g : Graph) (k : EdgeKey) (w : EW) : Graph :=
  g.modifyW k (fun _ => w)

/-- Modelled from the spec: `Pathfinding.modify_edge_weight(u, v, add_weight=d)`
(outside the provided sources); per §4.1 `addWeight(u, v, delta)` adds a finite
delta to the live weight, and per §4.4 adding to an already-infinite weight
leaves it infinite (Python float `inf + d == inf`). -/
def Graph.addWq (g : Graph) (k : EdgeKey) (d : ℚ) : Graph :=
  g.modifyW k (fun w => w.addQ d)

/-- `graph.has_edge(u, v)`. -/
def Graph.hasEdgeB (g : Graph) (k : EdgeKey) : Bool := (g.lookupW k).isSome

/-- `graph.add_node(n)`: networkx adds the node if absent. -/
def Graph.addNodeG (g : Graph) (n : String) : Graph :=
  if n ∈ g.nodes then g else { g with nodes := g.nodes ++ [n] }

/-- `graph.add_edge(u, v, weight=w)`: networkx inserts missing endpoint
nodes, then creates the edge or overwrites its weight. -/
def Graph.addEdgeG (g : Graph) (k : EdgeKey) (w : EW) : Graph :=
  let g1 := (g.addNodeG k.1).addNodeG k.2
  if g1.hasEdgeB k then g1.setW k w
  else { g1 with edges := g1.edges ++ [(k, w)] }

/-- `graph.remove_node(n)`: removes the node and every incident edge. -/
def Graph.removeNodeG (g : Graph) (n : String) : Graph :=
  { nodes := g.nodes.filter (fun m => decide (m ≠ n)),
    edges := g.edges.filter (fun p => decide (p.1.1 ≠ n) && decide (p.1.2 ≠ n)) }

theorem lookupL_cons_eq {p : EdgeKey × EW} {k : EdgeKey} (rest : List (EdgeKey × EW))
    (h : p.1 = k) : lookupL (p :: rest) k = some p.2 := by
  rw [lookupL, if_pos h]

theorem lookupL_cons_ne {p : EdgeKey × EW} {k : EdgeKey} (rest : List (EdgeKey × EW))
    (h : ¬ p.1 = k) : lookupL (p :: rest) k = lookupL rest k := by
  rw [lookupL, if_neg h]

theorem modifyL_cons (p : EdgeKey × EW) (rest : List (EdgeKey × EW)) (k : EdgeKey)
    (f : EW → EW) :
    modifyL (p :: rest) k f =
      (if p.1 = k then (p.1, f p.2) else p) :: modifyL rest k f := rfl

theorem lookupL_cons_pair_eq (a : EdgeKey) (w : EW) (rest : List (EdgeKey × EW))
    {k : EdgeKey} (h : a = k) : lookupL ((a, w) :: rest) k = some w := by
  rw [lookupL, if_pos h]

theorem lookupL_cons_pair_ne (a : EdgeKey) (w : EW) (rest : List (EdgeKey × EW))
    {k : EdgeKey} (h : ¬ a = k) : lookupL ((a, w) :: rest) k = lookupL rest k := by
  rw [lookupL, if_neg h]

theorem lookupL_modifyL (l : List (EdgeKey × EW)) (k k' : EdgeKey) (f : EW → EW) :
    lookupL (modifyL l k f) k' =
      if k' = k then (lookupL l k).map f else lookupL l k' := by
  induction l with
  | nil => simp [lookupL, modifyL]
  | cons p rest ih =>
    rw [modifyL_cons]
    by_cases hpk : p.1 = k
    · rw [if_pos hpk]
      by_cases hpk' : p.1 = k'
      · have hk' : k' = k := hpk'.symm.trans hpk
        rw [lookupL_cons_pair_eq _ _ _ hpk', if_pos hk', lookupL_cons_eq _ hpk]
        rfl
      · have hk' : ¬ k' = k := fun h => hpk' (hpk.trans h.symm)
        rw [lookupL_cons_pair_ne _ _ _ hpk', ih, if_neg hk', if_neg hk',
          lookupL_cons_ne _ hpk']
    · rw [if_neg hpk]
      by_cases hpk' : p.1 = k'
      · have hk' : ¬ k' = k := fun h => hpk (hpk'.trans h)
        rw [lookupL_cons_eq _ hpk', if_neg hk', lookupL_cons_eq _ hpk']
      · rw [lookupL_cons_ne _ hpk', ih]
        by_cases hk' : k' = k
        · rw [if_pos hk', if_pos hk', lookupL_cons_ne _ hpk]
        · rw [if_neg hk', if_neg hk', lookupL_cons_ne _ hpk']

theorem keysL_modifyL (l : List (EdgeKey × EW)) (k : EdgeKey) (f : EW → EW) :
    (modifyL l k f).map (fun p => p.1) = l.map (fun p => p.1) := by
  induction l with
  | nil => rfl
  | cons p rest ih =>
    simp only [modifyL, List.map_cons] at *
    by_cases hpk : p.1 = k <;> simp [hpk, ih]

theorem keysG_modifyW (g : Graph) (k : EdgeKey) (f : EW → EW) :
    keysG (g.modifyW k f) = keysG g := by
  simp [keysG, Graph.modifyW, keysL_modifyL]

theorem nodes_modifyW (g : Graph) (k : EdgeKey) (f : EW → EW) :
    (g.modifyW k f).nodes = g.nodes := rfl

theorem lookupW_modifyW (g : Graph) (k k' : EdgeKey) (f : EW → EW) :
    (g.modifyW k f).lookupW k' =
      if k' = k then (g.lookupW k).map f else g.lookupW k' := by
  simp [Graph.lookupW, Graph.modifyW, lookupL_modifyL]

theorem lookupW_setW (g : Graph) (k k' : EdgeKey) (w : EW) :
    (g.setW k w).lookupW k' =
      if k' = k then (g.lookupW k).map (fun _ => w) else g.lookupW k' := by
  simp [Graph.setW, lookupW_modifyW]

theorem lookupW_addWq (g : Graph) (k k' : EdgeKey) (d : ℚ) :
    (g.addWq k d).lookupW k' =
      if k' = k then (g.lookupW k).map (fun w => w.addQ d) else g.lookupW k' := by
  simp [Graph.addWq, lookupW_modifyW]

theorem mem_keysL_iff_lookupL_isSome (l : List (EdgeKey × EW)) (k : EdgeKey) :
    k ∈ l.map (fun p => p.1) ↔ (lookupL l k).isSome = true := by
  induction l with
  | nil => simp [lookupL]
  | cons p rest ih =>
    by_cases hpk : p.1 = k
    · simp [lookupL, hpk]
    · simp [lookupL, hpk, ih, Ne.symm hpk]

theorem hasEdgeB_iff_mem_keysG (g : Graph) (k : EdgeKey) :
    g.hasEdgeB k = true ↔ k ∈ keysG g := by
  rw [Graph.hasEdgeB, Graph.lookupW, keysG]
  exact (mem_keysL_iff_lookupL_isSome g.edges k).symm

theorem lookupW_eq_none_of_not_mem_keysG (g : Graph) (k : EdgeKey)
    (h : k ∉ keysG g) : g.lookupW k = none := by
  rcases hl : g.lookupW k with _ | w
  · rfl
  · exfalso
    apply h
    rw [← hasEdgeB_iff_mem_keysG]
    simp [Graph.hasEdgeB, hl]

theorem hasEdgeB_congr {g1 g2 : Graph} (h : keysG g1 = keysG g2) (k : EdgeKey) :
    g1.hasEdgeB k = g2.hasEdgeB k := by
  by_cases h1 : g1.hasEdgeB k = true
  · have := (hasEdgeB_iff_mem_keysG g1 k).mp h1
    rw [h] at this
    rw [h1, ((hasEdgeB_iff_mem_keysG g2 k).mpr this)]
  · have h2 : ¬ g2.hasEdgeB k = true := by
      intro hc
      exact h1 ((hasEdgeB_iff_mem_keysG g1 k).mpr (h ▸ (hasEdgeB_iff_mem_keysG g2 k).mp hc))
    simp only [Bool.not_eq_true] at h1 h2
    rw [h1, h2]

/-- Planar point with rational coordinates (Python floats in the source). -/
abbrev Pt := ℚ × ℚ

/-- Squared distance from point `p` to segment `ab`, following
`point_segment_distance` in `main_window.py` (clamped projection, with the
degenerate-segment fallback guarded by `abs(len_sq_ab) < 1e-9`; `len_sq_ab`
is a sum of squares, so the `abs` is redundant).  The source returns the
distance itself; comparisons against a non-negative threshold are made on
squares here, which is equivalent. -/
def ptSegDistSq (p a b : Pt) : ℚ :=
  let abx := b.1 - a.1
  let aby := b.2 - a.2
  let apx := p.1 - a.1
  let apy := p.2 - a.2
  let lensq := abx * abx + aby * aby
  if lensq < 1 / 1000000000 then apx * apx + apy * apy
  else
    let t := max 0 (min 1 ((apx * abx + apy * aby) / lensq))
    let cx := a.1 + t * abx
    let cy := a.2 + t * aby
    (p.1 - cx) * (p.1 - cx) + (p.2 - cy) * (p.2 - cy)

/-- Modelled from the spec: the proximity test of
`Pathfinding.find_edges_near_line` (in `src/app/pathfinding.py`, outside the
provided sources).  Per §4.1 an edge is affected when the distance between
the edge's segment `ab` and the query segment `cd` is within the threshold;
the spec allows projecting segment samples onto the other segment, modelled
here as the minimum over the four endpoint-to-segment distances. -/
def segNearB (a b c d : Pt) (tr : ℚ) : Bool :=
  decide (ptSegDistSq a c d ≤ tr * tr) || decide (ptSegDistSq b c d ≤ tr * tr) ||
    decide (ptSegDistSq c a b ≤ tr * tr) || decide (ptSegDistSq d a b ≤ tr * tr)

/-- Modelled from the spec: `Pathfinding.find_edges_near_line(p1, p2, threshold)`
(outside the provided sources).  Per §4.1 it scans every directed edge of the
graph and keeps those whose segment passes within `threshold` of the query
segment; it reads only the edge set and the node positions, never the
weights. -/
def findEdgesNearLine (g : Graph) (pos : String → Option Pt) (p1 p2 : Pt) (tr : ℚ) :
    List EdgeKey :=
  (keysG g).filter (fun k =>
    match pos k.1, pos k.2 with
    | some pu, some pv => segNearB pu pv p1 p2 tr
    | _, _ => false)

/-- A traffic-jam effect as stored on a drawn line item:
`{"type": "traffic", "weight": w, "start": p1, "end": p2}`. -/
structure JamEffect where
  p1 : Pt
  p2 : Pt
  weight : ℚ
deriving DecidableEq, Repr

/-- A block-way effect: `{"type": "block_way", "start": p1, "end": p2}`. -/
structure BlockEffect where
  p1 : Pt
  p2 : Pt
deriving DecidableEq, Repr

/-- An active traffic light: its effect line plus the weight modifier its
clock currently reports (`get_current_weight_modifier()`); the clock state
is frozen here, matching a pass with no intervening tick. -/
structure LightEffect where
  p1 : Pt
  p2 : Pt
  modifier : ℚ
deriving DecidableEq, Repr

/-- The inputs read by `_recalculate_effects_and_path`: the drawn jam lines,
block lines, active traffic lights, the node positions and the uniform
threshold `self._effect_application_threshold`. -/
structure EffectConfig where
  jams : List JamEffect
  blocks : List BlockEffect
  lights : List LightEffect
  pos : String → Option Pt
  threshold : ℚ

/-- One traffic-jam pass of `_recalculate_effects_and_path`: resolve the
affected edges, then `modify_edge_weight(u, v, add_weight=weight)` on each. -/
def applyJam (c : EffectConfig) (g : Graph) (j : JamEffect) : Graph :=
  (findEdgesNearLine g c.pos j.p1 j.p2 c.threshold).foldl
    (fun h k => h.addWq k j.weight) g

/-- One block-way pass: resolve the affected edges, then
`modify_edge_weight(u, v, set_weight=float('inf'))` on each. -/
def applyBlock (c : EffectConfig) (g : Graph) (b : BlockEffect) : Graph :=
  (findEdgesNearLine g c.pos b.p1 b.p2 c.threshold).foldl
    (fun h k => h.setW k EW.inf) g

/-- One traffic-light pass: resolve the affected edges, then (after the
source's redundant `has_edge` re-check) add the clock's current modifier. -/
def applyLight (c : EffectConfig) (g : Graph) (l : LightEffect) : Graph :=
  (findEdgesNearLine g c.pos l.p1 l.p2 c.threshold).foldl
    (fun h k => if h.hasEdgeB k then h.addWq k l.modifier else h) g

/-- `reset_graph_weights`: for every `(u, v) ↦ w` of the
`_original_weights` snapshot, if the edge still exists write the snapshot
weight back (`graph[u][v]['weight'] = original_weight`). -/
def resetGraphWeights (snap : List (EdgeKey × EW)) (g : Graph) : Graph :=
  snap.foldl (fun h e => if h.hasEdgeB e.1 then h.setW e.1 e.2 else h) g

/-- The weight-rewriting part of `_recalculate_effects_and_path`: reset to
the snapshot, then apply all jams, then all blocks, then all lights, in the
source's order. -/
def recompute (snap : List (EdgeKey × EW)) (c : EffectConfig) (g : Graph) : Graph :=
  c.lights.foldl (applyLight c)
    (c.blocks.foldl (applyBlock c)
      (c.jams.foldl (applyJam c)
        (resetGraphWeights snap g)))

/-- Python `s.startswith(p)`, evaluated on the character list. -/
def strStartsWith (p s : String) : Bool := List.isPrefixOf p.data s.data

/-- `node_id.startswith('VIRTUAL_')`: the test used everywhere in the source
to recognise virtual nodes. -/
def isVirtualId (s : String) : Bool := strStartsWith "VIRTUAL_" s

/-- Floor of a non-negative rational (`q.num / q.den` in integer division). -/
def ratFloorZ (q : ℚ) : ℤ := q.num / (q.den : ℤ)

/-- The Python format `f"{r:.3f}"` for the split ratio: three decimal
digits.  Python rounds half to even while this rounds half up; the two
agree except at exact multiples of 1/2000, and the claims only ever compare
the format at one and the same ratio. -/
def fmt3 (r : ℚ) : String :=
  let mi : ℤ := ratFloorZ (r * 1000 + 1 / 2)
  let m : ℕ := mi.natAbs
  (if mi < 0 then "-" else "") ++ toString (m / 1000) ++ "." ++
    (if m % 1000 < 10 then "00" ++ toString (m % 1000)
     else if m % 1000 < 100 then "0" ++ toString (m % 1000)
     else toString (m % 1000))

/-- `f"VIRTUAL_{u}_{v}_{best_ratio:.3f}"` from `_find_nearest_node_or_edge`:
the virtual-node identifier is a deterministic function of `(u, v, ratio)`. -/
def mkVirtualId (u v : String) (ratio : ℚ) : String :=
  "VIRTUAL_" ++ u ++ "_" ++ v ++ "_" ++ fmt3 ratio

/-- `_add_virtual_node_to_graph(virtual_id, u, v, ratio)`: no-op when the
virtual node already exists or the split edge is missing; otherwise adds the
node and the four synthetic directed edges with the proportionally split
weight (`graph[u][v].get('weight', 1.0)`). -/
def addVirtualNodeToGraph (g : Graph) (vid u v : String) (ratio : ℚ) : Graph :=
  if vid ∈ g.nodes then g
  else if g.hasEdgeB (u, v) then
    let w := (g.lookupW (u, v)).getD (EW.fin 1)
    let wu := w.scale ratio
    let wv := w.scale (1 - ratio)
    ((((g.addNodeG vid).addEdgeG (u, vid) wu).addEdgeG (vid, u) wu).addEdgeG
        (vid, v) wv).addEdgeG (v, vid) wv
  else g

/-- Association-list read of `self.node_positions`. -/
def lookupPos : List (String × Pt) → String → Option Pt
  | [], _ => none
  | p :: rest, n => if p.1 = n then some p.2 else lookupPos rest n

/-- Dict assignment `self.node_positions[n] = p`. -/
def setPosL (l : List (String × Pt)) (n : String) (p : Pt) : List (String × Pt) :=
  if (lookupPos l n).isSome then l.map (fun q => if q.1 = n then (q.1, p) else q)
  else l ++ [(n, p)]

/-- Dict deletion `del self.node_positions[n]`. -/
def delPosL (l : List (String × Pt)) (n : String) : List (String × Pt) :=
  l.filter (fun q => decide (q.1 ≠ n))

/-- The routing-relevant mutable state of `MainWindow`: the pathfinder's
graph, `node_positions`, `start_node`, `end_node` and the sidebar's waypoint
node ids. -/
structure AppState where
  graph : Graph
  positions : List (String × Pt)
  startNode : Option String
  endNode : Option String
  waypoints : List String
deriving DecidableEq, Repr

/-- `_remove_virtual_node(node_id)`: remove from the graph when present,
and drop the stored position. -/
def removeVirtualNodeSt (st : AppState) (nid : String) : AppState :=
  { st with
    graph := if nid ∈ st.graph.nodes then st.graph.removeNodeG nid else st.graph,
    positions := delPosL st.positions nid }

/-- `_remove_virtual_nodes(exclude_nodes)`: collect every graph node whose id
starts with `VIRTUAL_` and is not excluded, then remove each from the graph
and from `node_positions`. -/
def removeVirtualNodesSt (st : AppState) (exclude : List String) : AppState :=
  let vns := st.graph.nodes.filter (fun n => isVirtualId n && decide (n ∉ exclude))
  { st with
    graph := vns.foldl (fun h n => h.removeNodeG n) st.graph,
    positions := vns.foldl (fun l n => delPosL l n) st.positions }

/-- The `preserve_nodes` set built at the top of `_clear_all_waypoints`:
the start and end ids, each kept only when it is a virtual node. -/
def preservedEndpoints (st : AppState) : List String :=
  (match st.startNode with
   | some s => if isVirtualId s then [s] else []
   | none => []) ++
  (match st.endNode with
   | some e => if isVirtualId e then [e] else []
   | none => [])

/-- `_clear_all_waypoints`: clear the sidebar's waypoint list, then remove
all virtual nodes except the preserved start/end ones (marker and path
redrawing have no graph effect). -/
def clearAllWaypointsSt (st : AppState) : AppState :=
  removeVirtualNodesSt { st with waypoints := [] } (preservedEndpoints st)

/-- `_remove_selected_waypoint` with `current_row = row`: guard invalid
rows, drop the selected waypoint, and remove its virtual node from the
graph unless it is the current start or end node. -/
def removeSelectedWaypointSt (st : AppState) (row : ℤ) : AppState :=
  if row < 0 then st
  else if (st.waypoints.length : ℤ) ≤ row then st
  else
    let i := row.toNat
    let removed := st.waypoints.getD i ""
    let st1 := { st with waypoints := st.waypoints.eraseIdx i }
    if isVirtualId removed then
      if st.startNode ≠ some removed ∧ st.endNode ≠ some removed then
        removeVirtualNodeSt st1 removed
      else st1
    else st1

/-- The selection mode of a map click in `_handle_point_selected`. -/
inductive PointType where
  | start
  | endp
  | waypoint
deriving DecidableEq, Repr

/-- The result of `_find_nearest_node_or_edge` for a click:
`(node_id, pos, is_virtual, edge_info)`. -/
structure SelRes where
  nodeId : String
  pos : Pt
  isVirtual : Bool
  edgeInfo : Option (String × String × ℚ)

/-- `_handle_point_selected(point_type, x, y)` after resolution: in the
virtual case store the position and insert the virtual node, then dispatch
on the mode; setting start (resp. end) equal to the current end (resp.
start) shows a Selection Error and returns without assigning.  The returned
flag is `false` exactly on that rejection. -/
def handlePointSelected (st : AppState) (pt : PointType) (sel : SelRes) :
    AppState × Bool :=
  let st1 :=
    if sel.isVirtual then
      match sel.edgeInfo with
      | some (u, v, r) =>
        { st with
          positions := setPosL st.positions sel.nodeId sel.pos,
          graph := addVirtualNodeToGraph st.graph sel.nodeId u v r }
      | none => st
    else st
  match pt with
  | PointType.start =>
    if st.endNode = some sel.nodeId then (st1, false)
    else ({ st1 with startNode := some sel.nodeId }, true)
  | PointType.endp =>
    if st.startNode = some sel.nodeId then (st1, false)
    else ({ st1 with endNode := some sel.nodeId }, true)
  | PointType.waypoint =>
    ({ st1 with waypoints := st1.waypoints ++ [sel.nodeId] }, true)

/-- `_set_start_node_from_data` for a plain node entry: unknown ids are
refused, then `node_id == self.end_node` is refused, both before any state
change; otherwise the start node is assigned.  No graph mutation happens on
this path at all. -/
def setStartNodeFromData (st : AppState) (nodeId : String) : AppState × Bool :=
  if (lookupPos st.positions nodeId).isSome then
    if st.endNode = some nodeId then (st, false)
    else ({ st with startNode := some nodeId }, true)
  else (st, false)

/-- `_set_end_node_from_data` for a plain node entry, symmetric to
`setStartNodeFromData`. -/
def setEndNodeFromData (st : AppState) (nodeId : String) : AppState × Bool :=
  if (lookupPos st.positions nodeId).isSome then
    if st.startNode = some nodeId then (st, false)
    else ({ st with endNode := some nodeId }, true)
  else (st, false)

/-- Outcome of the multi-stop composition loop: a full route with total
cost, or the failing segment index (`unreachable` for "No path found",
`blocked` for "Path blocked"). -/
inductive RouteOutcome where
  | ok (path : List String) (cost : EW)
  | unreachable (i : ℕ)
  | blocked (i : ℕ)
deriving DecidableEq, Repr

/-- The per-segment cost scan of `_trigger_pathfinding_with_waypoints` for a
path returned by `find_path`: walk consecutive pairs, skip missing edges,
accumulate finite weights, and stop with a flag on the first infinite one. -/
def segScan (g : Graph) : List String → ℚ → ℚ × Bool
  | u :: v :: rest, acc =>
    if g.hasEdgeB (u, v) then
      match (g.lookupW (u, v)).getD (EW.fin 0) with
      | EW.inf => (acc, true)
      | EW.fin q => segScan g (v :: rest) (acc + q)
    else segScan g (v :: rest) acc
  | _, acc => (acc, false)

/-- The segment loop of `_trigger_pathfinding_with_waypoints` over
`route_points`: a direct edge is used as-is (its weight added with no
infinity check); otherwise `find_path` is consulted, an empty/None result is
"No path found" and an infinite edge along the returned path is "Path
blocked".  `i` is the running segment index, `acc` the accumulated
`full_path`, `total` the accumulated cost. -/
def composeAux (g : Graph) (fp : String → String → Option (List String)) :
    ℕ → List String → EW → List String → RouteOutcome
  | i, acc, total, s :: e :: rest =>
    if g.hasEdgeB (s, e) then
      let w := (g.lookupW (s, e)).getD (EW.fin 0)
      let sp := [s, e]
      composeAux g fp (i + 1) (if i = 0 then acc ++ sp else acc ++ sp.drop 1)
        (total.addE w) (e :: rest)
    else
      match fp s e with
      | none => RouteOutcome.unreachable i
      | some sp =>
        if sp.isEmpty then RouteOutcome.unreachable i
        else
          let sc := segScan g sp 0
          if sc.2 then RouteOutcome.blocked i
          else
            composeAux g fp (i + 1) (if i = 0 then acc ++ sp else acc ++ sp.drop 1)
              (total.addE (EW.fin sc.1)) (e :: rest)
  | _, acc, total, _ => RouteOutcome.ok acc total

/-- Multi-stop route composition over
`route_points = [start] + waypoints + [end]`, parameterised by the
`find_path` oracle (the A* search lives in `src/app/pathfinding.py`,
outside the provided sources). -/
def composeRoute (g : Graph) (fp : String → String → Option (List String))
    (pts : List String) : RouteOutcome :=
  composeAux g fp 0 [] (EW.fin 0) pts

/-- All ways to pick one element of a list, in order, each paired with the
remaining elements in order. -/
def pickEach : List ℕ → List (ℕ × List ℕ)
  | [] => []
  | x :: xs => (x, xs) :: (pickEach xs).map (fun p => (p.1, x :: p.2))

/-- Fuel-indexed enumeration of permutations in the order of Python's
`itertools.permutations` (lexicographic by input position). -/
def permsAux : ℕ → List ℕ → List (List ℕ)
  | 0, _ => [[]]
  | n + 1, l =>
    (pickEach l).foldr
      (fun p acc => ((permsAux n p.2).map (fun q => p.1 :: q)) ++ acc) []

/-- `itertools.permutations(l)` as a list of lists. -/
def permsAll (l : List ℕ) : List (List ℕ) := permsAux l.length l

/-- One step of the brute-force loop: `if cost < best_cost: update`. -/
def bestStep {α : Type} (f : α → EW) (acc : EW × Option α) (x : α) : EW × Option α :=
  if EW.blt (f x) acc.1 then (f x, some x) else acc

/-- The brute-force minimum scan, started from
`best_cost = float('inf'), best_order = None`. -/
def selectBest {α : Type} (f : α → EW) (l : List α) : EW × Option α :=
  l.foldl (bestStep f) (EW.inf, none)

/-- `sum(dist_matrix[(route[i], route[i+1])] for i in ...)` over a route of
matrix indices, in float arithmetic (an infinite term makes the sum
infinite). -/
def routeCostAux (dist : ℕ → ℕ → EW) : List ℕ → EW → EW
  | a :: b :: rest, acc => routeCostAux dist (b :: rest) (acc.addE (dist a b))
  | _, acc => acc

/-- Total cost of a route through the distance matrix. -/
def routeCost (dist : ℕ → ℕ → EW) (r : List ℕ) : EW := routeCostAux dist r (EW.fin 0)

/-- `min(unvisited, key=lambda x: dist_matrix[(current, x)])`: the first
minimiser in iteration order (CPython iterates a set of small ints in
ascending order, which is how callers build `unvisited`). -/
def argminFirst (key : ℕ → EW) : List ℕ → Option ℕ
  | [] => none
  | x :: xs =>
    match argminFirst key xs with
    | none => some x
    | some y => if EW.blt (key y) (key x) then some y else some x

/-- The nearest-neighbour loop of `_solve_tsp_route` for more than 7
waypoints. -/
def nnAux (dist : ℕ → ℕ → EW) : ℕ → ℕ → List ℕ → List ℕ
  | 0, _, _ => []
  | fuel + 1, cur, unvisited =>
    match argminFirst (fun x => dist cur x) unvisited with
    | none => []
    | some x => x :: nnAux dist fuel x (unvisited.erase x)

/-- `_solve_tsp_route(start, end, waypoints)` with `m` waypoints, given the
pairwise cost matrix over `[start] + waypoints + [end]` (matrix indices `0`
to `m+1`; building the matrix uses `find_path`, outside the provided
sources, so the matrix is a parameter here).  Matrix index `i` corresponds
to waypoint `i - 1`.  In the brute-force branch, when every permutation has
infinite cost `best_order` stays `None` and the final
`[idx - 1 for idx in best_order]` raises `TypeError`; this is modelled as
`none`. -/
def solveTsp (dist : ℕ → ℕ → EW) (m : ℕ) : Option (List ℕ) :=
  if m = 0 then some []
  else
    let n := m + 2
    let waypointIdxs := (List.range (n - 2)).map (fun i => i + 1)
    if waypointIdxs.length ≤ 1 then some waypointIdxs
    else if waypointIdxs.length ≤ 7 then
      let best := selectBest (fun p => routeCost dist (0 :: (p ++ [n - 1])))
        (permsAll waypointIdxs)
      match best.2 with
      | none => none
      | some p => some (p.map (fun i => i - 1))
    else
      some ((nnAux dist m 0 waypointIdxs).map (fun i => i - 1))

/-- The matrix indices `1 .. m` of the `m` waypoints
(`waypoint_indices = list(range(1, n - 1))`). -/
def tspIdxs (m : ℕ) : List ℕ := (List.range m).map (fun i => i + 1)

/-- The permutations enumerated by the brute-force branch. -/
def tspPerms (m : ℕ) : List (List ℕ) := permsAll (tspIdxs m)

/-- The total route cost `start → perm … → end` of a permutation `p` of
matrix indices: `route = [0] + list(perm) + [n - 1]`. -/
def tspCost (dist : ℕ → ℕ → EW) (m : ℕ) (p : List ℕ) : EW :=
  routeCost dist (0 :: (p ++ [m + 1]))

/-- Example: road network with one bidirectional road A–B of weight 4. -/
def exC1Base : Graph :=
  { nodes := ["A", "B"],
    edges := [(("A", "B"), EW.fin 4), (("B", "A"), EW.fin 4)] }

/-- Example: the `_original_weights` snapshot taken at load time, before
any virtual node exists. -/
def exC1Snap : List (EdgeKey × EW) := [(("A", "B"), EW.fin 4), (("B", "A"), EW.fin 4)]

/-- Example: the virtual-node id for a click at the midpoint of A–B. -/
def exC1Vid : String := mkVirtualId "A" "B" (1 / 2)

/-- Example: the graph after inserting that virtual node. -/
def exC1Graph : Graph := addVirtualNodeToGraph exC1Base exC1Vid "A" "B" (1 / 2)

/-- Example: node positions (A at the origin, B at (8,0), the virtual node
at the midpoint). -/
def exC1Pos : String → Option Pt := fun n =>
  if n = "A" then some (0, 0)
  else if n = "B" then some (8, 0)
  else if n = exC1Vid then some (4, 0)
  else none

/-- Example: one traffic jam of weight 1 drawn along the road, threshold 20
(the source's `_effect_application_threshold`). -/
def exC1Cfg : EffectConfig :=
  { jams := [{ p1 := (0, 0), p2 := (8, 0), weight := 1 }],
    blocks := [], lights := [], pos := exC1Pos, threshold := 20 }

/-- Example for block precedence: road A–B of weight 5. -/
def exC2Graph : Graph :=
  { nodes := ["A", "B"],
    edges := [(("A", "B"), EW.fin 5), (("B", "A"), EW.fin 5)] }

/-- Example: snapshot of `exC2Graph`. -/
def exC2Snap : List (EdgeKey × EW) := [(("A", "B"), EW.fin 5), (("B", "A"), EW.fin 5)]

/-- Example: positions for `exC2Graph`. -/
def exC2Pos : String → Option Pt := fun n =>
  if n = "A" then some (0, 0)
  else if n = "B" then some (8, 0)
  else none

/-- Example: a block way drawn along the road A–B. -/
def exC2Block : BlockEffect := { p1 := (0, 0), p2 := (8, 0) }

/-- Example: the block overlapping a jam (+3) and a green-discount light
(-100) on the same road. -/
def exC2Cfg : EffectConfig :=
  { jams := [{ p1 := (0, 0), p2 := (8, 0), weight := 3 }],
    blocks := [exC2Block],
    lights := [{ p1 := (0, 0), p2 := (8, 0), modifier := -100 }],
    pos := exC2Pos, threshold := 20 }

/-- Example for route composition: two stops joined by a direct edge whose
weight is already +∞ (e.g. after a block). -/
def exC3Graph : Graph := { nodes := ["A", "B"], edges := [(("A", "B"), EW.inf)] }

/-- Example cost matrix for the TSP witness (2 waypoints, matrix indices
0..3): the tour start → w2 → w1 → end is the unique cheap one. -/
def exC4Dist : ℕ → ℕ → EW := fun i j =>
  if i = 0 && j = 2 then EW.fin 1
  else if i = 2 && j = 1 then EW.fin 1
  else if i = 1 && j = 3 then EW.fin 1
  else EW.fin 10

/-- Example for virtual-node weight conservation: road A–B of weight 4. -/
def exC5Graph : Graph :=
  { nodes := ["A", "B"],
    edges := [(("A", "B"), EW.fin 4), (("B", "A"), EW.fin 4)] }

/-- Example app state for the selection claim: the end point is a virtual
node already present in the graph. -/
def exC7St : AppState :=
  { graph :=
      { nodes := ["A", "B", "VIRTUAL_A_B_0.500"],
        edges := [(("A", "B"), EW.fin 4), (("B", "A"), EW.fin 4),
                  (("A", "VIRTUAL_A_B_0.500"), EW.fin 2),
                  (("VIRTUAL_A_B_0.500", "A"), EW.fin 2),
                  (("VIRTUAL_A_B_0.500", "B"), EW.fin 2),
                  (("B", "VIRTUAL_A_B_0.500"), EW.fin 2)] },
    positions := [("A", (0, 0)), ("B", (8, 0)), ("VIRTUAL_A_B_0.500", (4, 0))],
    startNode := none,
    endNode := some "VIRTUAL_A_B_0.500",
    waypoints := [] }

/-- Example click resolution: the same point on edge A–B again, resolving
to the same virtual id as the current end point. -/
def exC7Sel : SelRes :=
  { nodeId := "VIRTUAL_A_B_0.500", pos := (4, 0), isVirtual := true,
    edgeInfo := some ("A", "B", 1 / 2) }

/-- Example app state for waypoint removal: the start point is a virtual
node, one other virtual node is a plain waypoint. -/
def exC9St : AppState :=
  { graph :=
      { nodes := ["A", "VIRTUAL_A_B_0.500", "VIRTUAL_A_B_0.250"],
        edges := [] },
    positions := [],
    startNode := some "VIRTUAL_A_B_0.500",
    endNode := some "A",
    waypoints := ["VIRTUAL_A_B_0.250"] }

/-- Example for the reset frame: a graph with one edge missing from the
snapshot and a snapshot weight differing from the live one. -/
def exC10Graph : Graph :=
  { nodes := ["A", "B", "C"],
    edges := [(("A", "B"), EW.fin 4), (("B", "C"), EW.fin 7)] }

/-- Example snapshot covering only `("A", "B")`. -/
def exC10Snap : List (EdgeKey × EW) := [(("A", "B"), EW.fin 9)]

theorem keysG_foldl {β : Type} (step : Graph → β → Graph)
    (hstep : ∀ g x, keysG (step g x) = keysG g) (l : List β) (g : Graph) :
    keysG (l.foldl step g) = keysG g := by
  induction l generalizing g with
  | nil => rfl
  | cons x xs ih => rw [List.foldl_cons, ih, hstep]

theorem nodes_foldl {β : Type} (step : Graph → β → Graph)
    (hstep : ∀ g x, (step g x).nodes = g.nodes) (l : List β) (g : Graph) :
    (l.foldl step g).nodes = g.nodes := by
  induction l generalizing g with
  | nil => rfl
  | cons x xs ih => rw [List.foldl_cons, ih, hstep]

theorem keysG_setW (g : Graph) (k : EdgeKey) (w : EW) : keysG (g.setW k w) = keysG g :=
  keysG_modifyW g k _

theorem keysG_addWq (g : Graph) (k : EdgeKey) (d : ℚ) : keysG (g.addWq k d) = keysG g :=
  keysG_modifyW g k _

theorem keysG_resetStep (g : Graph) (e : EdgeKey × EW) :
    keysG (if g.hasEdgeB e.1 then g.setW e.1 e.2 else g) = keysG g := by
  split
  · exact keysG_setW g e.1 e.2
  · rfl

theorem nodes_resetStep (g : Graph) (e : EdgeKey × EW) :
    (if g.hasEdgeB e.1 then g.setW e.1 e.2 else g).nodes = g.nodes := by
  split
  · rfl
  · rfl

theorem resetGraphWeights_cons (e : EdgeKey × EW) (rest : List (EdgeKey × EW)) (g : Graph) :
    resetGraphWeights (e :: rest) g =
      resetGraphWeights rest (if g.hasEdgeB e.1 then g.setW e.1 e.2 else g) := rfl

theorem keysG_resetGraphWeights (snap : List (EdgeKey × EW)) (g : Graph) :
    keysG (resetGraphWeights snap g) = keysG g :=
  keysG_foldl _ keysG_resetStep snap g

theorem nodes_resetGraphWeights (snap : List (EdgeKey × EW)) (g : Graph) :
    (resetGraphWeights snap g).nodes = g.nodes :=
  nodes_foldl _ nodes_resetStep snap g

theorem lookupW_resetGraphWeights_frame (snap : List (EdgeKey × EW)) (g : Graph)
    (k : EdgeKey) (h : k ∉ snap.map (fun p => p.1)) :
    (resetGraphWeights snap g).lookupW k = g.lookupW k := by
  induction snap generalizing g with
  | nil => rfl
  | cons e rest ih =>
    simp only [List.map_cons, List.mem_cons] at h
    push_neg at h
    rw [resetGraphWeights_cons, ih _ h.2]
    split
    · rw [lookupW_setW, if_neg h.1]
    · rfl

/-- C10: the weight-reset pass writes only snapshot edges that still exist
in the graph; every edge key absent from the `_original_weights` snapshot
(in particular the synthetic edges of a virtual node) keeps its current
weight, and the reset modifies neither the node set nor the edge set (node
positions are not even an input of `reset_graph_weights`). -/
theorem reset_writes_only_snapshot_edges (snap : List (EdgeKey × EW)) (g : Graph)
    (k : EdgeKey) (h : k ∉ snap.map (fun p => p.1)) :
    (resetGraphWeights snap g).lookupW k = g.lookupW k ∧
    (resetGraphWeights snap g).nodes = g.nodes ∧
    keysG (resetGraphWeights snap g) = keysG g :=
  ⟨lookupW_resetGraphWeights_frame snap g k h,
   nodes_resetGraphWeights snap g,
   keysG_resetGraphWeights snap g⟩

/-- C10 witness: the edge `("B","C")` is not in the snapshot, so the reset
leaves its weight at 7 while rewriting `("A","B")`. -/
theorem reset_writes_only_snapshot_edges_witness :
    (resetGraphWeights exC10Snap exC10Graph).lookupW ("B", "C") =
        exC10Graph.lookupW ("B", "C") ∧
    (resetGraphWeights exC10Snap exC10Graph).nodes = exC10Graph.nodes ∧
    keysG (resetGraphWeights exC10Snap exC10Graph) = keysG exC10Graph :=
  reset_writes_only_snapshot_edges exC10Snap exC10Graph ("B", "C") (by decide)

theorem keysG_applyJam (c : EffectConfig) (g : Graph) (j : JamEffect) :
    keysG (applyJam c g j) = keysG g :=
  keysG_foldl _ (fun g k => keysG_addWq g k j.weight) _ g

theorem keysG_applyBlock (c : EffectConfig) (g : Graph) (b : BlockEffect) :
    keysG (applyBlock c g b) = keysG g :=
  keysG_foldl _ (fun g k => keysG_setW g k EW.inf) _ g

theorem keysG_lightStep (d : ℚ) (g : Graph) (k : EdgeKey) :
    keysG (if g.hasEdgeB k then g.addWq k d else g) = keysG g := by
  split
  · exact keysG_addWq g k d
  · rfl

theorem keysG_applyLight (c : EffectConfig) (g : Graph) (l : LightEffect) :
    keysG (applyLight c g l) = keysG g :=
  keysG_foldl _ (keysG_lightStep l.modifier) _ g

theorem keysG_recompute (snap : List (EdgeKey × EW)) (c : EffectConfig) (g : Graph) :
    keysG (recompute snap c g) = keysG g := by
  unfold recompute
  rw [keysG_foldl (applyLight c) (keysG_applyLight c) _ _,
    keysG_foldl (applyBlock c) (keysG_applyBlock c) _ _,
    keysG_foldl (applyJam c) (keysG_applyJam c) _ _,
    keysG_resetGraphWeights]

theorem findEdgesNearLine_congr {g1 g2 : Graph} (h : keysG g1 = keysG g2)
    (pos : String → Option Pt) (p1 p2 : Pt) (tr : ℚ) :
    findEdgesNearLine g1 pos p1 p2 tr = findEdgesNearLine g2 pos p1 p2 tr := by
  unfold findEdgesNearLine
  rw [h]

theorem findEdgesNearLine_subset {g : Graph} {pos : String → Option Pt} {p1 p2 : Pt}
    {tr : ℚ} {k : EdgeKey} (h : k ∈ findEdgesNearLine g pos p1 p2 tr) : k ∈ keysG g :=
  List.mem_of_mem_filter h

theorem lookupW_none_of_not_hasEdge {g : Graph} {k : EdgeKey}
    (h : ¬ g.hasEdgeB k = true) : g.lookupW k = none := by
  cases hx : g.lookupW k with
  | none => rfl
  | some w => exact absurd (by simp [Graph.hasEdgeB, hx]) h

theorem lookupW_map_const_of_hasEdge {g : Graph} {k : EdgeKey}
    (h : g.hasEdgeB k = true) (w : EW) :
    (g.lookupW k).map (fun _ => w) = some w := by
  rcases Option.isSome_iff_exists.mp h with ⟨x, hx⟩
  rw [hx]
  rfl

theorem lookupW_reset_congr (snap : List (EdgeKey × EW)) (k : EdgeKey) :
    ∀ {g1 g2 : Graph}, k ∈ snap.map (fun p => p.1) → keysG g1 = keysG g2 →
      (resetGraphWeights snap g1).lookupW k = (resetGraphWeights snap g2).lookupW k := by
  induction snap with
  | nil => intro g1 g2 hmem _; simp at hmem
  | cons e rest ih =>
    intro g1 g2 hmem hkeys
    rw [resetGraphWeights_cons, resetGraphWeights_cons]
    by_cases hr : k ∈ rest.map (fun p => p.1)
    · exact ih hr (by rw [keysG_resetStep, keysG_resetStep, hkeys])
    · have hke : k = e.1 := by
        simp only [List.map_cons, List.mem_cons] at hmem
        rcases hmem with h1 | h2
        · exact h1
        · exact absurd h2 hr
      rw [lookupW_resetGraphWeights_frame rest _ k hr,
        lookupW_resetGraphWeights_frame rest _ k hr]
      have hhe := hasEdgeB_congr hkeys e.1
      by_cases hhe1 : g1.hasEdgeB e.1 = true
      · rw [if_pos hhe1, if_pos (hhe ▸ hhe1)]
        rw [lookupW_setW, lookupW_setW, if_pos hke, if_pos hke,
          lookupW_map_const_of_hasEdge hhe1, lookupW_map_const_of_hasEdge (hhe ▸ hhe1)]
      · have hhe2 : ¬ g2.hasEdgeB e.1 = true := by rw [← hhe]; exact hhe1
        rw [if_neg hhe1, if_neg hhe2, hke,
          lookupW_none_of_not_hasEdge hhe1, lookupW_none_of_not_hasEdge hhe2]

theorem inv_step_addWq (k e : EdgeKey) (d : ℚ) {g1 g2 : Graph}
    (hkeys : keysG g1 = keysG g2) (hl : g1.lookupW k = g2.lookupW k) :
    keysG (g1.addWq e d) = keysG (g2.addWq e d) ∧
      (g1.addWq e d).lookupW k = (g2.addWq e d).lookupW k := by
  refine ⟨by rw [keysG_addWq, keysG_addWq, hkeys], ?_⟩
  rw [lookupW_addWq, lookupW_addWq]
  by_cases hke : k = e
  · rw [if_pos hke, if_pos hke, ← hke, hl]
  · rw [if_neg hke, if_neg hke, hl]

theorem inv_step_setW (k e : EdgeKey) (w : EW) {g1 g2 : Graph}
    (hkeys : keysG g1 = keysG g2) (hl : g1.lookupW k = g2.lookupW k) :
    keysG (g1.setW e w) = keysG (g2.setW e w) ∧
      (g1.setW e w).lookupW k = (g2.setW e w).lookupW k := by
  refine ⟨by rw [keysG_setW, keysG_setW, hkeys], ?_⟩
  rw [lookupW_setW, lookupW_setW]
  by_cases hke : k = e
  · rw [if_pos hke, if_pos hke, ← hke, hl]
  · rw [if_neg hke, if_neg hke, hl]

theorem inv_step_light (k e : EdgeKey) (d : ℚ) {g1 g2 : Graph}
    (hkeys : keysG g1 = keysG g2) (hl : g1.lookupW k = g2.lookupW k) :
    keysG (if g1.hasEdgeB e then g1.addWq e d else g1) =
        keysG (if g2.hasEdgeB e then g2.addWq e d else g2) ∧
      (if g1.hasEdgeB e then g1.addWq e d else g1).lookupW k =
        (if g2.hasEdgeB e then g2.addWq e d else g2).lookupW k := by
  have hhe := hasEdgeB_congr hkeys e
  by_cases hhe1 : g1.hasEdgeB e = true
  · rw [if_pos hhe1, if_pos (hhe ▸ hhe1)]
    exact inv_step_addWq k e d hkeys hl
  · have hhe2 : ¬ g2.hasEdgeB e = true := by rw [← hhe]; exact hhe1
    rw [if_neg hhe1, if_neg hhe2]
    exact ⟨hkeys, hl⟩

theorem inv_foldl {β : Type} (step : Graph → β → Graph) (k : EdgeKey)
    (hstep : ∀ (g1 g2 : Graph) (x : β), keysG g1 = keysG g2 →
      g1.lookupW k = g2.lookupW k →
      keysG (step g1 x) = keysG (step g2 x) ∧
        (step g1 x).lookupW k = (step g2 x).lookupW k)
    (l : List β) :
    ∀ {g1 g2 : Graph}, keysG g1 = keysG g2 → g1.lookupW k = g2.lookupW k →
      keysG (l.foldl step g1) = keysG (l.foldl step g2) ∧
        (l.foldl step g1).lookupW k = (l.foldl step g2).lookupW k := by
  induction l with
  | nil => intro g1 g2 hk hl; exact ⟨hk, hl⟩
  | cons x xs ih =>
    intro g1 g2 hk hl
    rw [List.foldl_cons, List.foldl_cons]
    obtain ⟨hk2, hl2⟩ := hstep g1 g2 x hk hl
    exact ih hk2 hl2

theorem inv_applyJam (c : EffectConfig) (k : EdgeKey) (g1 g2 : Graph) (j : JamEffect)
    (hkeys : keysG g1 = keysG g2) (hl : g1.lookupW k = g2.lookupW k) :
    keysG (applyJam c g1 j) = keysG (applyJam c g2 j) ∧
      (applyJam c g1 j).lookupW k = (applyJam c g2 j).lookupW k := by
  unfold applyJam
  rw [findEdgesNearLine_congr hkeys]
  exact inv_foldl _ k (fun h1 h2 e hk hl => inv_step_addWq k e j.weight hk hl) _ hkeys hl

theorem inv_applyBlock (c : EffectConfig) (k : EdgeKey) (g1 g2 : Graph) (b : BlockEffect)
    (hkeys : keysG g1 = keysG g2) (hl : g1.lookupW k = g2.lookupW k) :
    keysG (applyBlock c g1 b) = keysG (applyBlock c g2 b) ∧
      (applyBlock c g1 b).lookupW k = (applyBlock c g2 b).lookupW k := by
  unfold applyBlock
  rw [findEdgesNearLine_congr hkeys]
  exact inv_foldl _ k (fun h1 h2 e hk hl => inv_step_setW k e EW.inf hk hl) _ hkeys hl

theorem inv_applyLight (c : EffectConfig) (k : EdgeKey) (g1 g2 : Graph) (l : LightEffect)
    (hkeys : keysG g1 = keysG g2) (hl : g1.lookupW k = g2.lookupW k) :
    keysG (applyLight c g1 l) = keysG (applyLight c g2 l) ∧
      (applyLight c g1 l).lookupW k = (applyLight c g2 l).lookupW k := by
  unfold applyLight
  rw [findEdgesNearLine_congr hkeys]
  exact inv_foldl _ k (fun h1 h2 e hk hl => inv_step_light k e l.modifier hk hl) _ hkeys hl

theorem lookupW_recompute_congr (snap : List (EdgeKey × EW)) (c : EffectConfig)
    (k : EdgeKey) (hmem : k ∈ snap.map (fun p => p.1)) {g1 g2 : Graph}
    (hkeys : keysG g1 = keysG g2) :
    (recompute snap c g1).lookupW k = (recompute snap c g2).lookupW k := by
  have hk1 : keysG (resetGraphWeights snap g1) = keysG (resetGraphWeights snap g2) := by
    rw [keysG_resetGraphWeights, keysG_resetGraphWeights, hkeys]
  have hl1 := lookupW_reset_congr snap k hmem hkeys
  unfold recompute
  obtain ⟨hk2, hl2⟩ := inv_foldl (applyJam c) k (inv_applyJam c k) c.jams hk1 hl1
  obtain ⟨hk3, hl3⟩ := inv_foldl (applyBlock c) k (inv_applyBlock c k) c.blocks hk2 hl2
  exact (inv_foldl (applyLight c) k (inv_applyLight c k) c.lights hk3 hl3).2

/-- C1 (amended): with no intervening edit and frozen traffic-light clocks,
a second recompute pass reproduces the first pass's weight on every edge
recorded in the `_original_weights` snapshot; when every edge of the graph
is recorded there (no virtual node has been inserted), the two passes agree
on every edge.  Edges absent from the snapshot — the synthetic edges of
virtual nodes — are not restored by the reset and can accumulate modifiers
(see the counterexample). -/
theorem recompute_idempotent_on_snapshot_edges (snap : List (EdgeKey × EW))
    (c : EffectConfig) (g : Graph) :
    (∀ k ∈ snap.map (fun p => p.1),
      (recompute snap c (recompute snap c g)).lookupW k =
        (recompute snap c g).lookupW k) ∧
    ((∀ k ∈ keysG g, k ∈ snap.map (fun p => p.1)) →
      ∀ k, (recompute snap c (recompute snap c g)).lookupW k =
        (recompute snap c g).lookupW k) := by
  constructor
  · intro k hmem
    exact lookupW_recompute_congr snap c k hmem (keysG_recompute snap c g)
  · intro hsub k
    by_cases hkg : k ∈ keysG g
    · exact lookupW_recompute_congr snap c k (hsub k hkg) (keysG_recompute snap c g)
    · have h1 : k ∉ keysG (recompute snap c (recompute snap c g)) := by
        rw [keysG_recompute, keysG_recompute]
        exact hkg
      have h2 : k ∉ keysG (recompute snap c g) := by
        rw [keysG_recompute]
        exact hkg
      rw [lookupW_eq_none_of_not_mem_keysG _ _ h1, lookupW_eq_none_of_not_mem_keysG _ _ h2]

/-- C1 is false as stated: after inserting a virtual node at the midpoint
of the road A–B and drawing a traffic jam along that road, the jam's
modifier accumulates on the synthetic edge `(A, virtual)` — it is not in
the `_original_weights` snapshot, so the reset does not restore it — and
the second recompute pass yields a different weight (4 = 2+1+1) than the
first (3 = 2+1), with no intervening edit and no clock change. -/
theorem recompute_not_idempotent_on_virtual_edges :
    ¬ ((recompute exC1Snap exC1Cfg (recompute exC1Snap exC1Cfg exC1Graph)).lookupW
        ("A", exC1Vid) =
      (recompute exC1Snap exC1Cfg exC1Graph).lookupW ("A", exC1Vid)) := by
  with_unfolding_all decide

/-- C1 witness: on the snapshot edge `("A","B")` of the same scenario the
two passes agree. -/
theorem recompute_idempotent_on_snapshot_edges_witness :
    (recompute exC1Snap exC1Cfg (recompute exC1Snap exC1Cfg exC1Graph)).lookupW ("A", "B") =
      (recompute exC1Snap exC1Cfg exC1Graph).lookupW ("A", "B") :=
  (recompute_idempotent_on_snapshot_edges exC1Snap exC1Cfg exC1Graph).1 ("A", "B")
    (by decide)

theorem foldl_keeps_inf {β : Type} (step : Graph → β → Graph) (k : EdgeKey)
    (hstep : ∀ (g : Graph) (x : β), g.lookupW k = some EW.inf →
      (step g x).lookupW k = some EW.inf)
    (l : List β) :
    ∀ {g : Graph}, g.lookupW k = some EW.inf →
      (l.foldl step g).lookupW k = some EW.inf := by
  induction l with
  | nil => intro g h; exact h
  | cons x xs ih =>
    intro g h
    rw [List.foldl_cons]
    exact ih (hstep g x h)

theorem setW_inf_keeps_inf (k e : EdgeKey) {g : Graph}
    (h : g.lookupW k = some EW.inf) : (g.setW e EW.inf).lookupW k = some EW.inf := by
  rw [lookupW_setW]
  by_cases hke : k = e
  · rw [if_pos hke, ← hke, h]
    rfl
  · rw [if_neg hke]
    exact h

theorem addWq_keeps_inf (k e : EdgeKey) (d : ℚ) {g : Graph}
    (h : g.lookupW k = some EW.inf) : (g.addWq e d).lookupW k = some EW.inf := by
  rw [lookupW_addWq]
  by_cases hke : k = e
  · rw [if_pos hke, ← hke, h]
    rfl
  · rw [if_neg hke]
    exact h

theorem lightStep_keeps_inf (k e : EdgeKey) (d : ℚ) {g : Graph}
    (h : g.lookupW k = some EW.inf) :
    (if g.hasEdgeB e then g.addWq e d else g).lookupW k = some EW.inf := by
  split
  · exact addWq_keeps_inf k e d h
  · exact h

theorem applyBlock_keeps_inf (c : EffectConfig) (k : EdgeKey) (g : Graph) (b : BlockEffect)
    (h : g.lookupW k = some EW.inf) : (applyBlock c g b).lookupW k = some EW.inf :=
  foldl_keeps_inf _ k (fun g e hh => setW_inf_keeps_inf k e hh) _ h

theorem applyLight_keeps_inf (c : EffectConfig) (k : EdgeKey) (g : Graph) (l : LightEffect)
    (h : g.lookupW k = some EW.inf) : (applyLight c g l).lookupW k = some EW.inf :=
  foldl_keeps_inf _ k (fun g e hh => lightStep_keeps_inf k e l.modifier hh) _ h

theorem foldl_setInf_frame (l : List EdgeKey) (k : EdgeKey) :
    ∀ {g : Graph}, k ∉ l →
      (l.foldl (fun h e => h.setW e EW.inf) g).lookupW k = g.lookupW k := by
  induction l with
  | nil => intro g _; rfl
  | cons e rest ih =>
    intro g hk
    rw [List.foldl_cons, ih (fun hm => hk (List.mem_cons_of_mem _ hm)), lookupW_setW,
      if_neg (fun hke : k = e => hk (by rw [hke]; exact List.mem_cons_self e rest))]

theorem foldl_setInf_of_mem (l : List EdgeKey) (k : EdgeKey) :
    ∀ {g : Graph}, k ∈ l → k ∈ keysG g →
      (l.foldl (fun h e => h.setW e EW.inf) g).lookupW k = some EW.inf := by
  induction l with
  | nil => intro g hm _; simp at hm
  | cons e rest ih =>
    intro g hm hkey
    rw [List.foldl_cons]
    by_cases hr : k ∈ rest
    · exact ih hr (by rw [keysG_setW]; exact hkey)
    · have hke : k = e := by
        rcases List.mem_cons.mp hm with h1 | h2
        · exact h1
        · exact absurd h2 hr
      rw [foldl_setInf_frame rest k hr, lookupW_setW, if_pos hke, ← hke,
        lookupW_map_const_of_hasEdge ((hasEdgeB_iff_mem_keysG g k).mpr hkey)]

theorem blocks_fold_forces_inf (c : EffectConfig) (bs : List BlockEffect)
    (b : BlockEffect) (hb : b ∈ bs) (gref : Graph) (k : EdgeKey)
    (hk : k ∈ findEdgesNearLine gref c.pos b.p1 b.p2 c.threshold) :
    ∀ {g : Graph}, keysG g = keysG gref →
      ((bs.foldl (applyBlock c) g).lookupW k = some EW.inf) := by
  induction bs with
  | nil => simp at hb
  | cons b0 rest ih =>
    intro g hkeys
    rw [List.foldl_cons]
    rcases List.mem_cons.mp hb with hb1 | hb2
    · subst hb1
      have hk0 : k ∈ findEdgesNearLine g c.pos b.p1 b.p2 c.threshold := by
        rw [findEdgesNearLine_congr hkeys]
        exact hk
      have hinf : (applyBlock c g b).lookupW k = some EW.inf := by
        unfold applyBlock
        exact foldl_setInf_of_mem _ k hk0 (findEdgesNearLine_subset hk0)
      exact foldl_keeps_inf _ k (fun g x hh => applyBlock_keeps_inf c k g x hh) rest hinf
    · exact ih hb2 (by rw [keysG_applyBlock]; exact hkeys)

/-- C2: after a recompute pass, every edge affected by an active block-way
effect has weight exactly +∞: blocks are applied after jams with
`set_weight=float('inf')`, later blocks only rewrite +∞, and traffic-light
modifiers (also negative ones) are added afterwards with float semantics
`inf + d == inf`. -/
theorem block_effect_forces_infinite_weight (snap : List (EdgeKey × EW))
    (c : EffectConfig) (g : Graph) (b : BlockEffect) (k : EdgeKey)
    (hb : b ∈ c.blocks)
    (hk : k ∈ findEdgesNearLine g c.pos b.p1 b.p2 c.threshold) :
    (recompute snap c g).lookupW k = some EW.inf := by
  unfold recompute
  have hkeys : keysG (c.jams.foldl (applyJam c) (resetGraphWeights snap g)) = keysG g := by
    rw [keysG_foldl (applyJam c) (keysG_applyJam c) _ _, keysG_resetGraphWeights]
  have hblocks := blocks_fold_forces_inf c c.blocks b hb g k hk hkeys
  exact foldl_keeps_inf _ k (fun g x hh => applyLight_keeps_inf c k g x hh) c.lights hblocks

/-- C2 witness: a block way drawn along the road A–B forces the edge
`("A","B")` to +∞ even though a jam (+3) and a traffic light with a
negative modifier (-100) overlap the same edge. -/
theorem block_effect_forces_infinite_weight_witness :
    (recompute exC2Snap exC2Cfg exC2Graph).lookupW ("A", "B") = some EW.inf :=
  block_effect_forces_infinite_weight exC2Snap exC2Cfg exC2Graph exC2Block ("A", "B")
    (by with_unfolding_all decide) (by with_unfolding_all decide)

theorem edges_addNodeG (g : Graph) (n : String) : (g.addNodeG n).edges = g.edges := by
  unfold Graph.addNodeG
  split
  · rfl
  · rfl

theorem lookupW_addNodeG (g : Graph) (n : String) (k : EdgeKey) :
    (g.addNodeG n).lookupW k = g.lookupW k := by
  rw [Graph.lookupW, Graph.lookupW, edges_addNodeG]

theorem lookupL_append_of_none (l1 l2 : List (EdgeKey × EW)) (k : EdgeKey)
    (h : lookupL l1 k = none) : lookupL (l1 ++ l2) k = lookupL l2 k := by
  induction l1 with
  | nil => rfl
  | cons p rest ih =>
    by_cases hpk : p.1 = k
    · rw [lookupL_cons_eq rest hpk] at h
      exact absurd h (by simp)
    · rw [lookupL_cons_ne rest hpk] at h
      rw [List.cons_append, lookupL_cons_ne _ hpk, ih h]

theorem lookupL_append_of_some (l1 l2 : List (EdgeKey × EW)) (k : EdgeKey) (w : EW)
    (h : lookupL l1 k = some w) : lookupL (l1 ++ l2) k = some w := by
  induction l1 with
  | nil => exact absurd h (by simp [lookupL])
  | cons p rest ih =>
    by_cases hpk : p.1 = k
    · rw [lookupL_cons_eq rest hpk] at h
      rw [List.cons_append, lookupL_cons_eq _ hpk]
      exact h
    · rw [lookupL_cons_ne rest hpk] at h
      rw [List.cons_append, lookupL_cons_ne _ hpk, ih h]

theorem lookupW_addEdgeG_self (g : Graph) (k : EdgeKey) (w : EW) :
    (g.addEdgeG k w).lookupW k = some w := by
  unfold Graph.addEdgeG
  by_cases h : ((g.addNodeG k.1).addNodeG k.2).hasEdgeB k = true
  · rw [if_pos h, lookupW_setW, if_pos rfl, lookupW_map_const_of_hasEdge h]
  · rw [if_neg h]
    show lookupL (((g.addNodeG k.1).addNodeG k.2).edges ++ [(k, w)]) k = some w
    rw [lookupL_append_of_none _ _ _ (lookupW_none_of_not_hasEdge h)]
    exact lookupL_cons_pair_eq k w [] rfl

theorem lookupW_addEdgeG_ne (g : Graph) (k k' : EdgeKey) (w : EW) (h : ¬ k' = k) :
    (g.addEdgeG k w).lookupW k' = g.lookupW k' := by
  unfold Graph.addEdgeG
  by_cases hh : ((g.addNodeG k.1).addNodeG k.2).hasEdgeB k = true
  · rw [if_pos hh, lookupW_setW, if_neg h, lookupW_addNodeG, lookupW_addNodeG]
  · rw [if_neg hh]
    show lookupL (((g.addNodeG k.1).addNodeG k.2).edges ++ [(k, w)]) k' = g.lookupW k'
    have hlast : lookupL [(k, w)] k' = none := by
      rw [lookupL_cons_pair_ne k w [] (fun hkk => h hkk.symm)]
      rfl
    cases hx : lookupL (((g.addNodeG k.1).addNodeG k.2).edges) k' with
    | none =>
      rw [lookupL_append_of_none _ _ _ hx, hlast]
      have h2 := lookupW_addNodeG (g.addNodeG k.1) k.2 k'
      rw [Graph.lookupW, hx] at h2
      rw [lookupW_addNodeG] at h2
      exact h2
    | some v =>
      rw [lookupL_append_of_some _ _ _ _ hx]
      have h2 := lookupW_addNodeG (g.addNodeG k.1) k.2 k'
      rw [Graph.lookupW, hx] at h2
      rw [lookupW_addNodeG] at h2
      exact h2

theorem nodes_addEdgeG (g : Graph) (k : EdgeKey) (w : EW) :
    (g.addEdgeG k w).nodes = ((g.addNodeG k.1).addNodeG k.2).nodes := by
  unfold Graph.addEdgeG
  by_cases hh : ((g.addNodeG k.1).addNodeG k.2).hasEdgeB k = true
  · rw [if_pos hh]
    rfl
  · rw [if_neg hh]

theorem mem_nodes_addNodeG_self (g : Graph) (n : String) : n ∈ (g.addNodeG n).nodes := by
  unfold Graph.addNodeG
  split
  · assumption
  · exact List.mem_append_right _ (by simp)

theorem mem_nodes_addNodeG_of_mem (g : Graph) (m n : String) (h : n ∈ g.nodes) :
    n ∈ (g.addNodeG m).nodes := by
  unfold Graph.addNodeG
  split
  · exact h
  · exact List.mem_append_left _ h

theorem mem_nodes_addEdgeG_of_mem (g : Graph) (k : EdgeKey) (w : EW) (n : String)
    (h : n ∈ g.nodes) : n ∈ (g.addEdgeG k w).nodes := by
  rw [nodes_addEdgeG]
  exact mem_nodes_addNodeG_of_mem _ _ _ (mem_nodes_addNodeG_of_mem _ _ _ h)

theorem length_VIRTUAL_lit : ("VIRTUAL_" : String).length = 8 := by decide

theorem length_underscore_lit : ("_" : String).length = 1 := by decide

theorem mkVirtualId_ne_left (u v : String) (r : ℚ) : mkVirtualId u v r ≠ u := by
  intro h
  have hlen := congrArg String.length h
  rw [mkVirtualId] at hlen
  simp only [String.length_append] at hlen
  rw [length_VIRTUAL_lit, length_underscore_lit] at hlen
  omega

theorem mkVirtualId_ne_right (u v : String) (r : ℚ) : mkVirtualId u v r ≠ v := by
  intro h
  have hlen := congrArg String.length h
  rw [mkVirtualId] at hlen
  simp only [String.length_append] at hlen
  rw [length_VIRTUAL_lit, length_underscore_lit] at hlen
  omega

theorem prodNe_of_fst {a b c d : String} (h : a ≠ c) : (a, b) ≠ (c, d) :=
  fun hh => h (congrArg Prod.fst hh)

theorem prodNe_of_snd {a b c d : String} (h : b ≠ d) : (a, b) ≠ (c, d) :=
  fun hh => h (congrArg Prod.snd hh)

theorem addVirtualNodeToGraph_of_mem (g : Graph) (vid u v : String) (r : ℚ)
    (h : vid ∈ g.nodes) : addVirtualNodeToGraph g vid u v r = g := by
  unfold addVirtualNodeToGraph
  rw [if_pos h]

theorem addVirtualNodeToGraph_of_no_edge (g : Graph) (vid u v : String) (r : ℚ)
    (h1 : vid ∉ g.nodes) (h2 : ¬ g.hasEdgeB (u, v) = true) :
    addVirtualNodeToGraph g vid u v r = g := by
  unfold addVirtualNodeToGraph
  rw [if_neg h1, if_neg h2]

/-- C5: inserting a virtual node on an existing edge `(u, v)` of finite
weight `w` at ratio `r` creates the half-edges with weights `w * r` and
`w * (1 - r)`, in both directions each, and the two halves sum exactly to
`w` (the rational model is exact where the floats agree within tolerance). -/
theorem virtual_node_weight_conservation (g : Graph) (u v : String) (r w : ℚ)
    (huv : u ≠ v) (hw : g.lookupW (u, v) = some (EW.fin w))
    (hvid : mkVirtualId u v r ∉ g.nodes) (hr0 : 0 < r) (hr1 : r < 1) :
    (addVirtualNodeToGraph g (mkVirtualId u v r) u v r).lookupW (u, mkVirtualId u v r) =
        some (EW.fin (w * r)) ∧
    (addVirtualNodeToGraph g (mkVirtualId u v r) u v r).lookupW (mkVirtualId u v r, u) =
        some (EW.fin (w * r)) ∧
    (addVirtualNodeToGraph g (mkVirtualId u v r) u v r).lookupW (mkVirtualId u v r, v) =
        some (EW.fin (w * (1 - r))) ∧
    (addVirtualNodeToGraph g (mkVirtualId u v r) u v r).lookupW (v, mkVirtualId u v r) =
        some (EW.fin (w * (1 - r))) ∧
    w * r + w * (1 - r) = w := by
  have hvu : mkVirtualId u v r ≠ u := mkVirtualId_ne_left u v r
  have hvv : mkVirtualId u v r ≠ v := mkVirtualId_ne_right u v r
  have hhe : g.hasEdgeB (u, v) = true := by rw [Graph.hasEdgeB, hw]; rfl
  have hG : addVirtualNodeToGraph g (mkVirtualId u v r) u v r =
      ((((g.addNodeG (mkVirtualId u v r)).addEdgeG (u, mkVirtualId u v r)
            ((EW.fin w).scale r)).addEdgeG
          (mkVirtualId u v r, u) ((EW.fin w).scale r)).addEdgeG
        (mkVirtualId u v r, v) ((EW.fin w).scale (1 - r))).addEdgeG
        (v, mkVirtualId u v r) ((EW.fin w).scale (1 - r)) := by
    unfold addVirtualNodeToGraph
    rw [if_neg hvid, if_pos hhe, hw]
    rfl
  rw [hG]
  refine ⟨?_, ?_, ?_, ?_, by ring⟩
  · rw [lookupW_addEdgeG_ne _ _ _ _ (prodNe_of_fst huv),
      lookupW_addEdgeG_ne _ _ _ _ (prodNe_of_fst (Ne.symm hvu)),
      lookupW_addEdgeG_ne _ _ _ _ (prodNe_of_fst (Ne.symm hvu)),
      lookupW_addEdgeG_self]
    rfl
  · rw [lookupW_addEdgeG_ne _ _ _ _ (prodNe_of_fst hvv),
      lookupW_addEdgeG_ne _ _ _ _ (prodNe_of_snd huv),
      lookupW_addEdgeG_self]
    rfl
  · rw [lookupW_addEdgeG_ne _ _ _ _ (prodNe_of_fst hvv),
      lookupW_addEdgeG_self]
    rfl
  · rw [lookupW_addEdgeG_self]
    rfl

/-- C5 witness: on the road A–B of weight 4, the insertion at ratio 1/4
creates half-edges of weights 1 and 3 in both directions, and 1 + 3 = 4. -/
theorem virtual_node_weight_conservation_witness :
    (addVirtualNodeToGraph exC5Graph (mkVirtualId "A" "B" (1/4)) "A" "B" (1/4)).lookupW
        ("A", mkVirtualId "A" "B" (1/4)) = some (EW.fin (4 * (1/4))) ∧
    (addVirtualNodeToGraph exC5Graph (mkVirtualId "A" "B" (1/4)) "A" "B" (1/4)).lookupW
        (mkVirtualId "A" "B" (1/4), "A") = some (EW.fin (4 * (1/4))) ∧
    (addVirtualNodeToGraph exC5Graph (mkVirtualId "A" "B" (1/4)) "A" "B" (1/4)).lookupW
        (mkVirtualId "A" "B" (1/4), "B") = some (EW.fin (4 * (1 - 1/4))) ∧
    (addVirtualNodeToGraph exC5Graph (mkVirtualId "A" "B" (1/4)) "A" "B" (1/4)).lookupW
        ("B", mkVirtualId "A" "B" (1/4)) = some (EW.fin (4 * (1 - 1/4))) ∧
    (4 : ℚ) * (1/4) + 4 * (1 - 1/4) = 4 :=
  virtual_node_weight_conservation exC5Graph "A" "B" (1/4) 4 (by decide)
    (by with_unfolding_all decide) (by with_unfolding_all decide)
    (by with_unfolding_all decide) (by with_unfolding_all decide)

/-- C6: the virtual-node identifier is the same deterministic function of
`(u, v, ratio)` on both insertions, and the second insertion hits the
`virtual_id in graph` guard (or repeats the same no-op), leaving the graph
exactly as after the first insertion: no node or synthetic edge is
duplicated. -/
theorem virtual_node_insertion_idempotent (g : Graph) (u v : String) (r : ℚ) :
    mkVirtualId u v r = mkVirtualId u v r ∧
    addVirtualNodeToGraph (addVirtualNodeToGraph g (mkVirtualId u v r) u v r)
        (mkVirtualId u v r) u v r =
      addVirtualNodeToGraph g (mkVirtualId u v r) u v r := by
  refine ⟨rfl, ?_⟩
  by_cases h1 : mkVirtualId u v r ∈ g.nodes
  · rw [addVirtualNodeToGraph_of_mem g _ u v r h1, addVirtualNodeToGraph_of_mem g _ u v r h1]
  · by_cases h2 : g.hasEdgeB (u, v) = true
    · have hmem : mkVirtualId u v r ∈ (addVirtualNodeToGraph g (mkVirtualId u v r) u v r).nodes := by
        unfold addVirtualNodeToGraph
        rw [if_neg h1, if_pos h2]
        exact mem_nodes_addEdgeG_of_mem _ _ _ _
          (mem_nodes_addEdgeG_of_mem _ _ _ _
            (mem_nodes_addEdgeG_of_mem _ _ _ _
              (mem_nodes_addEdgeG_of_mem _ _ _ _ (mem_nodes_addNodeG_self g _))))
      rw [addVirtualNodeToGraph_of_mem _ _ u v r hmem]
    · rw [addVirtualNodeToGraph_of_no_edge g _ u v r h1 h2,
        addVirtualNodeToGraph_of_no_edge g _ u v r h1 h2]

/-- C7: a click that would set start equal to the current end (or end equal
to the current start) is rejected with a Selection Error and the road
network graph is exactly as before the attempt — also when the click lies
on an edge and resolves to a virtual node, because then that virtual id is
the current endpoint, hence already a graph node, and the insertion's
`virtual_id in graph` guard makes it a no-op.  The search-selection path
(`_set_start_node_from_data` / `_set_end_node_from_data`) likewise rejects
the equal selection before touching any state. -/
theorem selection_equal_endpoints_rejected (st : AppState) (sel : SelRes) (nid : String) :
    (st.endNode = some sel.nodeId → sel.nodeId ∈ st.graph.nodes →
      (handlePointSelected st PointType.start sel).2 = false ∧
      (handlePointSelected st PointType.start sel).1.graph = st.graph ∧
      (handlePointSelected st PointType.start sel).1.startNode = st.startNode ∧
      (handlePointSelected st PointType.start sel).1.endNode = st.endNode ∧
      (handlePointSelected st PointType.start sel).1.waypoints = st.waypoints) ∧
    (st.startNode = some sel.nodeId → sel.nodeId ∈ st.graph.nodes →
      (handlePointSelected st PointType.endp sel).2 = false ∧
      (handlePointSelected st PointType.endp sel).1.graph = st.graph ∧
      (handlePointSelected st PointType.endp sel).1.startNode = st.startNode ∧
      (handlePointSelected st PointType.endp sel).1.endNode = st.endNode ∧
      (handlePointSelected st PointType.endp sel).1.waypoints = st.waypoints) ∧
    (st.endNode = some nid → setStartNodeFromData st nid = (st, false)) ∧
    (st.startNode = some nid → setEndNodeFromData st nid = (st, false)) := by
  refine ⟨?_, ?_, ?_, ?_⟩
  · intro hE hIn
    cases hsv : sel.isVirtual with
    | false => simp [handlePointSelected, hsv, hE]
    | true =>
      rcases hei : sel.edgeInfo with _ | ⟨u, v, rr⟩
      · simp [handlePointSelected, hsv, hei, hE]
      · simp [handlePointSelected, hsv, hei, hE,
          addVirtualNodeToGraph_of_mem st.graph sel.nodeId u v rr hIn]
  · intro hS hIn
    cases hsv : sel.isVirtual with
    | false => simp [handlePointSelected, hsv, hS]
    | true =>
      rcases hei : sel.edgeInfo with _ | ⟨u, v, rr⟩
      · simp [handlePointSelected, hsv, hei, hS]
      · simp [handlePointSelected, hsv, hei, hS,
          addVirtualNodeToGraph_of_mem st.graph sel.nodeId u v rr hIn]
  · intro hE
    unfold setStartNodeFromData
    by_cases hp : (lookupPos st.positions nid).isSome = true
    · rw [if_pos hp, if_pos hE]
    · rw [if_neg hp]
  · intro hS
    unfold setEndNodeFromData
    by_cases hp : (lookupPos st.positions nid).isSome = true
    · rw [if_pos hp, if_pos hS]
    · rw [if_neg hp]

/-- C7 witness: clicking the on-edge point that is the current (virtual)
end point while in start-selection mode is rejected and the graph is
unchanged. -/
theorem selection_equal_endpoints_rejected_witness :
    (handlePointSelected exC7St PointType.start exC7Sel).2 = false ∧
    (handlePointSelected exC7St PointType.start exC7Sel).1.graph = exC7St.graph ∧
    (handlePointSelected exC7St PointType.start exC7Sel).1.startNode = exC7St.startNode ∧
    (handlePointSelected exC7St PointType.start exC7Sel).1.endNode = exC7St.endNode ∧
    (handlePointSelected exC7St PointType.start exC7Sel).1.waypoints = exC7St.waypoints :=
  (selection_equal_endpoints_rejected exC7St exC7Sel "").1 (by decide) (by decide)

theorem mem_nodes_removeNodeG (g : Graph) (m n : String) :
    n ∈ (g.removeNodeG m).nodes ↔ n ∈ g.nodes ∧ n ≠ m := by
  simp [Graph.removeNodeG, List.mem_filter]

theorem mem_nodes_foldl_removeNodeG (L : List String) :
    ∀ (g : Graph) (n : String),
      n ∈ (L.foldl (fun h m => h.removeNodeG m) g).nodes ↔ n ∈ g.nodes ∧ n ∉ L := by
  induction L with
  | nil => intro g n; simp
  | cons x xs ih =>
    intro g n
    rw [List.foldl_cons, ih, mem_nodes_removeNodeG]
    constructor
    · rintro ⟨⟨hg, hnx⟩, hxs⟩
      exact ⟨hg, by simp [hnx, hxs]⟩
    · rintro ⟨hg, hn⟩
      simp only [List.mem_cons, not_or] at hn
      exact ⟨⟨hg, hn.1⟩, hn.2⟩

theorem mem_graph_removeVirtualNodesSt (st : AppState) (excl : List String) (n : String) :
    n ∈ (removeVirtualNodesSt st excl).graph.nodes ↔
      n ∈ st.graph.nodes ∧
        ¬ (n ∈ st.graph.nodes ∧ (isVirtualId n && decide (n ∉ excl)) = true) := by
  unfold removeVirtualNodesSt
  rw [mem_nodes_foldl_removeNodeG]
  constructor
  · rintro ⟨hg, hf⟩
    refine ⟨hg, fun hc => hf (List.mem_filter.mpr hc)⟩
  · rintro ⟨hg, hf⟩
    exact ⟨hg, fun hm => hf (List.mem_filter.mp hm)⟩

theorem startNode_mem_preservedEndpoints (st : AppState) (s : String)
    (hs : st.startNode = some s) (hv : isVirtualId s = true) :
    s ∈ preservedEndpoints st := by
  unfold preservedEndpoints
  rw [hs]
  apply List.mem_append_left
  simp [hv]

theorem endNode_mem_preservedEndpoints (st : AppState) (s : String)
    (hs : st.endNode = some s) (hv : isVirtualId s = true) :
    s ∈ preservedEndpoints st := by
  unfold preservedEndpoints
  rw [hs]
  apply List.mem_append_right
  simp [hv]

theorem clearAllWaypoints_keeps_node (st : AppState) (s : String)
    (href : st.startNode = some s ∨ st.endNode = some s)
    (hmem : s ∈ st.graph.nodes) : s ∈ (clearAllWaypointsSt st).graph.nodes := by
  unfold clearAllWaypointsSt
  rw [mem_graph_removeVirtualNodesSt]
  refine ⟨hmem, ?_⟩
  rintro ⟨_, hcond⟩
  rw [Bool.and_eq_true, decide_eq_true_eq] at hcond
  rcases href with h1 | h2
  · exact hcond.2 (startNode_mem_preservedEndpoints _ s h1 hcond.1)
  · exact hcond.2 (endNode_mem_preservedEndpoints _ s h2 hcond.1)

theorem clearAllWaypoints_removed_props (st : AppState) (n : String)
    (hmem : n ∈ st.graph.nodes) (hgone : n ∉ (clearAllWaypointsSt st).graph.nodes) :
    isVirtualId n = true ∧ st.startNode ≠ some n ∧ st.endNode ≠ some n := by
  unfold clearAllWaypointsSt at hgone
  rw [mem_graph_removeVirtualNodesSt] at hgone
  have hc : (isVirtualId n && decide (n ∉ preservedEndpoints st)) = true := by
    by_contra hnc
    refine hgone ⟨hmem, ?_⟩
    rintro ⟨_, hx⟩
    exact hnc hx
  rw [Bool.and_eq_true, decide_eq_true_eq] at hc
  refine ⟨hc.1, ?_, ?_⟩
  · intro heq
    exact hc.2 (startNode_mem_preservedEndpoints st n heq hc.1)
  · intro heq
    exact hc.2 (endNode_mem_preservedEndpoints st n heq hc.1)

theorem removeSelectedWaypoint_keeps_node (st : AppState) (row : ℤ) (s : String)
    (href : st.startNode = some s ∨ st.endNode = some s)
    (hmem : s ∈ st.graph.nodes) : s ∈ (removeSelectedWaypointSt st row).graph.nodes := by
  simp only [removeSelectedWaypointSt, removeVirtualNodeSt]
  split_ifs with h1 h2 h3 h4 h5
  · exact hmem
  · exact hmem
  · rw [mem_nodes_removeNodeG]
    refine ⟨hmem, ?_⟩
    intro heq
    rcases href with hr | hr
    · exact h4.1 (by rw [← heq]; exact hr)
    · exact h4.2 (by rw [← heq]; exact hr)
  · exact hmem
  · exact hmem
  · exact hmem

theorem removeSelectedWaypoint_removed_props (st : AppState) (row : ℤ) (n : String)
    (hmem : n ∈ st.graph.nodes) (hgone : n ∉ (removeSelectedWaypointSt st row).graph.nodes) :
    isVirtualId n = true ∧ st.startNode ≠ some n ∧ st.endNode ≠ some n := by
  simp only [removeSelectedWaypointSt, removeVirtualNodeSt] at hgone
  split_ifs at hgone with h1 h2 h3 h4 h5
  · exact absurd hmem hgone
  · exact absurd hmem hgone
  · rw [mem_nodes_removeNodeG] at hgone
    have hn : n = st.waypoints.getD row.toNat "" := by
      by_contra hne
      exact hgone ⟨hmem, hne⟩
    refine ⟨by rw [hn]; exact h3, ?_, ?_⟩
    · rw [hn]
      exact h4.1
    · rw [hn]
      exact h4.2
  · exact absurd hmem hgone
  · exact absurd hmem hgone
  · exact absurd hmem hgone

/-- C9: neither removing one selected waypoint nor clearing all waypoints
ever deletes a virtual node that is currently referenced as the start or
end point; a node those operations do delete is always a virtual node with
no start/end reference. -/
theorem waypoint_removal_preserves_endpoint_virtuals (st : AppState) (row : ℤ) :
    (∀ s, st.startNode = some s → s ∈ st.graph.nodes →
      s ∈ (clearAllWaypointsSt st).graph.nodes ∧
      s ∈ (removeSelectedWaypointSt st row).graph.nodes) ∧
    (∀ e, st.endNode = some e → e ∈ st.graph.nodes →
      e ∈ (clearAllWaypointsSt st).graph.nodes ∧
      e ∈ (removeSelectedWaypointSt st row).graph.nodes) ∧
    (∀ n, n ∈ st.graph.nodes → n ∉ (clearAllWaypointsSt st).graph.nodes →
      isVirtualId n = true ∧ st.startNode ≠ some n ∧ st.endNode ≠ some n) ∧
    (∀ n, n ∈ st.graph.nodes → n ∉ (removeSelectedWaypointSt st row).graph.nodes →
      isVirtualId n = true ∧ st.startNode ≠ some n ∧ st.endNode ≠ some n) := by
  refine ⟨?_, ?_, ?_, ?_⟩
  · intro s hs hmem
    exact ⟨clearAllWaypoints_keeps_node st s (Or.inl hs) hmem,
      removeSelectedWaypoint_keeps_node st row s (Or.inl hs) hmem⟩
  · intro e he hmem
    exact ⟨clearAllWaypoints_keeps_node st e (Or.inr he) hmem,
      removeSelectedWaypoint_keeps_node st row e (Or.inr he) hmem⟩
  · intro n hmem hgone
    exact clearAllWaypoints_removed_props st n hmem hgone
  · intro n hmem hgone
    exact removeSelectedWaypoint_removed_props st row n hmem hgone

/-- C9 witness: with a virtual start node and a virtual plain waypoint,
clearing all waypoints and removing waypoint row 0 both keep the start
node in the graph. -/
theorem waypoint_removal_preserves_endpoint_virtuals_witness :
    "VIRTUAL_A_B_0.500" ∈ (clearAllWaypointsSt exC9St).graph.nodes ∧
    "VIRTUAL_A_B_0.500" ∈ (removeSelectedWaypointSt exC9St 0).graph.nodes :=
  (waypoint_removal_preserves_endpoint_virtuals exC9St 0).1 "VIRTUAL_A_B_0.500"
    (by decide) (by decide)

/-- C3 fails on the code (code bug): when two consecutive stops are joined
by a direct edge, `_trigger_pathfinding_with_waypoints` takes the direct
branch, which adds the edge weight to the total without the infinity check
performed in the `find_path` branch.  With the direct edge A→B already at
+∞ (e.g. blocked), the composition returns — and the caller draws — the
complete route `[A, B]` with total cost +∞ instead of a Blocked error for
segment 0 and no route. -/
theorem compose_route_direct_infinite_edge_returns_route :
    composeRoute exC3Graph (fun _ _ => none) ["A", "B"] =
      RouteOutcome.ok ["A", "B"] EW.inf := by
  with_unfolding_all decide

/-- C8 fails on the code (code bug): with 2 stops and every pair cost +∞
(a fully blocked matrix), every permutation's total is +∞, the strict
`cost < best_cost` comparison never fires, `best_order` remains `None`, and
the final `[idx - 1 for idx in best_order]` raises `TypeError` — modelled
as `none`: the solver produces no permutation at all instead of a
well-defined order. -/
theorem solveTsp_all_infinite_matrix_fails :
    solveTsp (fun _ _ => EW.inf) 2 = none := by
  with_unfolding_all decide

/-- C4 fails as stated at stop count 1 (within "at most 7"): the
`len(waypoint_indices) <= 1` shortcut returns the matrix index list `[1]`
unchanged, not a permutation of the stop indices `{0}` — every other branch
converts matrix indices to stop indices by subtracting 1, and the caller
indexes `waypoints` with the result. -/
theorem solveTsp_single_stop_returns_matrix_index :
    solveTsp (fun _ _ => EW.fin 1) 1 = some [1] ∧ [1] ≠ [0] := by
  constructor
  · with_unfolding_all decide
  · decide

theorem EW.blt_asymm {a b : EW} (h : EW.blt a b = true) : EW.blt b a = false := by
  cases a <;> cases b <;> simp [EW.blt] at * <;> linarith

theorem foldBest_from_some {α : Type} (f : α → EW) (l : List α) :
    ∀ p : α, ∃ q : α,
      l.foldl (bestStep f) (f p, some p) = (f q, some q) ∧
      ((q = p ∧ ∀ x ∈ l, EW.blt (f x) (f p) = false) ∨
        (∃ pre post, l = pre ++ q :: post ∧ EW.blt (f q) (f p) = true ∧
          (∀ x ∈ pre, EW.blt (f q) (f x) = true) ∧
          (∀ x ∈ post, EW.blt (f x) (f q) = false))) := by
  induction l with
  | nil => exact fun p => ⟨p, rfl, Or.inl ⟨rfl, by simp⟩⟩
  | cons x xs ih =>
    intro p
    rw [List.foldl_cons]
    by_cases hbx : EW.blt (f x) (f p) = true
    · have hstep : bestStep f (f p, some p) x = (f x, some x) := by
        unfold bestStep
        rw [if_pos hbx]
      rw [hstep]
      obtain ⟨q, hfold, hcase⟩ := ih x
      refine ⟨q, hfold, ?_⟩
      rcases hcase with ⟨hqx, hall⟩ | ⟨pre, post, hdecomp, hqlt, hpre, hpost⟩
      · subst hqx
        exact Or.inr ⟨[], xs, rfl, hbx, by simp, hall⟩
      · refine Or.inr ⟨x :: pre, post, by rw [List.cons_append, ← hdecomp],
          EW.blt_trans hqlt hbx, ?_, hpost⟩
        intro y hy
        rcases List.mem_cons.mp hy with h1 | h2
        · subst h1
          exact hqlt
        · exact hpre y h2
    · rw [Bool.not_eq_true] at hbx
      have hstep : bestStep f (f p, some p) x = (f p, some p) := by
        unfold bestStep
        rw [if_neg (by rw [hbx]; exact Bool.false_ne_true)]
      rw [hstep]
      obtain ⟨q, hfold, hcase⟩ := ih p
      refine ⟨q, hfold, ?_⟩
      rcases hcase with ⟨hqp, hall⟩ | ⟨pre, post, hdecomp, hqlt, hpre, hpost⟩
      · refine Or.inl ⟨hqp, ?_⟩
        intro y hy
        rcases List.mem_cons.mp hy with h1 | h2
        · subst h1
          exact hbx
        · exact hall y h2
      · refine Or.inr ⟨x :: pre, post, by rw [List.cons_append, ← hdecomp], hqlt, ?_, hpost⟩
        intro y hy
        rcases List.mem_cons.mp hy with h1 | h2
        · subst h1
          exact EW.blt_of_blt_of_not_blt hqlt hbx
        · exact hpre y h2

theorem selectBest_none_iff {α : Type} (f : α → EW) (l : List α) :
    (selectBest f l).2 = none ↔ ∀ x ∈ l, f x = EW.inf := by
  induction l with
  | nil => simp [selectBest]
  | cons x xs ih =>
    rw [selectBest, List.foldl_cons]
    by_cases hbx : EW.blt (f x) EW.inf = true
    · have hstep : bestStep f (EW.inf, none) x = (f x, some x) := by
        unfold bestStep
        rw [if_pos hbx]
      rw [hstep]
      constructor
      · intro hnone
        obtain ⟨q, hfold, _⟩ := foldBest_from_some f xs x
        rw [hfold] at hnone
        simp at hnone
      · intro hall
        exact absurd (hall x (List.mem_cons_self x xs)) (EW.blt_inf_right.mp hbx)
    · rw [Bool.not_eq_true] at hbx
      have hfx : f x = EW.inf := EW.eq_inf_of_not_blt_inf hbx
      have hstep : bestStep f (EW.inf, none) x = (EW.inf, none) := by
        unfold bestStep
        rw [if_neg (by rw [hbx]; exact Bool.false_ne_true)]
      rw [hstep, ← selectBest, ih]
      constructor
      · intro hall y hy
        rcases List.mem_cons.mp hy with h1 | h2
        · subst h1
          exact hfx
        · exact hall y h2
      · intro hall y hy
        exact hall y (List.mem_cons_of_mem _ hy)

theorem selectBest_some_spec {α : Type} (f : α → EW) (l : List α) (q : α)
    (h : (selectBest f l).2 = some q) :
    EW.blt (f q) EW.inf = true ∧
    (∃ pre post, l = pre ++ q :: post ∧ ∀ x ∈ pre, EW.blt (f q) (f x) = true) ∧
    (∀ x ∈ l, EW.blt (f x) (f q) = false) := by
  induction l with
  | nil => exact absurd h (by simp [selectBest])
  | cons x xs ih =>
    rw [selectBest, List.foldl_cons] at h
    by_cases hbx : EW.blt (f x) EW.inf = true
    · have hstep : bestStep f (EW.inf, none) x = (f x, some x) := by
        unfold bestStep
        rw [if_pos hbx]
      rw [hstep] at h
      obtain ⟨q2, hfold, hcase⟩ := foldBest_from_some f xs x
      rw [hfold] at h
      have hq : q2 = q := by simpa using h
      subst hq
      rcases hcase with ⟨hqx, hall⟩ | ⟨pre, post, hdecomp, hqlt, hpre, hpost⟩
      · subst hqx
        refine ⟨hbx, ⟨[], xs, rfl, by simp⟩, ?_⟩
        intro y hy
        rcases List.mem_cons.mp hy with h1 | h2
        · subst h1
          exact EW.blt_irrefl _
        · exact hall y h2
      · refine ⟨EW.blt_trans hqlt hbx,
          ⟨x :: pre, post, by rw [List.cons_append, ← hdecomp], ?_⟩, ?_⟩
        · intro y hy
          rcases List.mem_cons.mp hy with h1 | h2
          · subst h1
            exact hqlt
          · exact hpre y h2
        · intro y hy
          rcases List.mem_cons.mp hy with h1 | h2
          · subst h1
            exact EW.blt_asymm hqlt
          · rw [hdecomp] at h2
            rcases List.mem_append.mp h2 with hp | hqp
            · exact EW.blt_asymm (hpre y hp)
            · rcases List.mem_cons.mp hqp with h3 | h4
              · subst h3
                exact EW.blt_irrefl _
              · exact hpost y h4
    · rw [Bool.not_eq_true] at hbx
      have hfx : f x = EW.inf := EW.eq_inf_of_not_blt_inf hbx
      have hstep : bestStep f (EW.inf, none) x = (EW.inf, none) := by
        unfold bestStep
        rw [if_neg (by rw [hbx]; exact Bool.false_ne_true)]
      rw [hstep, ← selectBest] at h
      obtain ⟨hfin, ⟨pre, post, hdecomp, hpre⟩, hmin⟩ := ih h
      refine ⟨hfin, ⟨x :: pre, post, by rw [List.cons_append, ← hdecomp], ?_⟩, ?_⟩
      · intro y hy
        rcases List.mem_cons.mp hy with h1 | h2
        · subst h1
          rw [hfx]
          exact hfin
        · exact hpre y h2
      · intro y hy
        rcases List.mem_cons.mp hy with h1 | h2
        · subst h1
          rw [hfx]
          exact EW.blt_inf_left _
        · exact hmin y h2

theorem pickEach_sound :
    ∀ (l : List ℕ) (p : ℕ × List ℕ), p ∈ pickEach l → l.Perm (p.1 :: p.2) := by
  intro l
  induction l with
  | nil => intro p hp; simp [pickEach] at hp
  | cons x xs ih =>
    intro p hp
    rw [pickEach] at hp
    rcases List.mem_cons.mp hp with h1 | h2
    · subst h1
      exact List.Perm.refl _
    · rcases List.mem_map.mp h2 with ⟨q, hq, hmapeq⟩
      subst hmapeq
      exact ((ih q hq).cons x).trans (List.Perm.swap q.1 x q.2)

theorem pickEach_length :
    ∀ (l : List ℕ) (p : ℕ × List ℕ), p ∈ pickEach l → p.2.length + 1 = l.length := by
  intro l
  induction l with
  | nil => intro p hp; simp [pickEach] at hp
  | cons x xs ih =>
    intro p hp
    rw [pickEach] at hp
    rcases List.mem_cons.mp hp with h1 | h2
    · subst h1
      rfl
    · rcases List.mem_map.mp h2 with ⟨q, hq, hmapeq⟩
      subst hmapeq
      have := ih q hq
      simp only [List.length_cons]
      omega

theorem pickEach_complete :
    ∀ (l : List ℕ) (a : ℕ), a ∈ l → (a, l.erase a) ∈ pickEach l := by
  intro l
  induction l with
  | nil => intro a ha; simp at ha
  | cons x xs ih =>
    intro a ha
    by_cases hax : a = x
    · subst hax
      rw [pickEach]
      have he : (a :: xs).erase a = xs := by simp
      rw [he]
      exact List.mem_cons_self _ _
    · have ha2 : a ∈ xs := by
        rcases List.mem_cons.mp ha with h | h
        · exact absurd h hax
        · exact h
      rw [pickEach]
      apply List.mem_cons_of_mem
      have he : (x :: xs).erase a = x :: xs.erase a := by
        rw [List.erase_cons_tail]
        simp [Ne.symm hax]
      rw [he]
      exact List.mem_map.mpr ⟨(a, xs.erase a), ih a ha2, rfl⟩

theorem mem_foldr_append {α β : Type} (f : α → List β) (L : List α) (q : β) :
    q ∈ L.foldr (fun p acc => f p ++ acc) [] ↔ ∃ p ∈ L, q ∈ f p := by
  induction L with
  | nil => simp
  | cons x xs ih => simp [List.foldr_cons, List.mem_append, ih]

theorem permsAux_sound :
    ∀ (n : ℕ) (l : List ℕ), l.length = n → ∀ q ∈ permsAux n l, q.Perm l := by
  intro n
  induction n with
  | zero =>
    intro l hl q hq
    have hle : l = [] := List.length_eq_zero.mp hl
    subst hle
    simp [permsAux] at hq
    subst hq
    exact List.Perm.refl _
  | succ n ih =>
    intro l hl q hq
    rw [permsAux, mem_foldr_append] at hq
    obtain ⟨p, hp, hq2⟩ := hq
    rcases List.mem_map.mp hq2 with ⟨q2, hq2m, hmapeq⟩
    subst hmapeq
    have hlen : p.2.length = n := by
      have := pickEach_length l p hp
      omega
    have hperm : q2.Perm p.2 := ih p.2 hlen q2 hq2m
    exact (hperm.cons p.1).trans (pickEach_sound l p hp).symm

theorem permsAll_sound (l q : List ℕ) (hq : q ∈ permsAll l) : q.Perm l :=
  permsAux_sound l.length l rfl q hq

theorem permsAux_complete :
    ∀ (n : ℕ) (l q : List ℕ), l.length = n → q.Perm l → q ∈ permsAux n l := by
  intro n
  induction n with
  | zero =>
    intro l q hl hq
    have hle : l = [] := List.length_eq_zero.mp hl
    subst hle
    have hqe : q = [] := hq.eq_nil
    subst hqe
    simp [permsAux]
  | succ n ih =>
    intro l q hl hq
    cases q with
    | nil =>
      have hle : l = [] := hq.symm.eq_nil
      rw [hle] at hl
      simp at hl
    | cons a q2 =>
      have ha : a ∈ l := hq.mem_iff.mp (List.mem_cons_self a q2)
      have hq2 : q2.Perm (l.erase a) := (List.cons_perm_iff_perm_erase.mp hq).2
      have hlen : (l.erase a).length = n := by
        rw [List.length_erase_of_mem ha, hl]
        rfl
      have hmem := ih (l.erase a) q2 hlen hq2
      rw [permsAux, mem_foldr_append]
      exact ⟨(a, l.erase a), pickEach_complete l a ha, List.mem_map.mpr ⟨q2, hmem, rfl⟩⟩

theorem permsAll_complete (l q : List ℕ) (hq : q.Perm l) : q ∈ permsAll l :=
  permsAux_complete l.length l q rfl hq

/-- C4 (amended): for 2 to 7 stops, provided at least one permutation has
finite total cost, the brute-force branch enumerates all permutations of
the matrix indices in `itertools.permutations` order and returns (as
0-based stop indices) the first-encountered permutation of minimal total
cost `start → perm … → end`: no permutation — in the enumerated list or
semantically — costs strictly less, and every earlier-enumerated one costs
strictly more.  With 1 stop the code instead returns the matrix index list
`[1]` (see the counterexample), and with every permutation at +∞ it
returns no order at all (see the C8 analysis). -/
theorem solveTsp_brute_force_first_minimum (dist : ℕ → ℕ → EW) (m : ℕ)
    (h2 : 2 ≤ m) (h7 : m ≤ 7)
    (hfin : ∃ p ∈ tspPerms m, tspCost dist m p ≠ EW.inf) :
    ∃ q ∈ tspPerms m,
      solveTsp dist m = some (q.map (fun i => i - 1)) ∧
      q.Perm (tspIdxs m) ∧
      (∀ p, p.Perm (tspIdxs m) →
        EW.blt (tspCost dist m p) (tspCost dist m q) = false) ∧
      (∃ pre post, tspPerms m = pre ++ q :: post ∧
        ∀ p ∈ pre, EW.blt (tspCost dist m q) (tspCost dist m p) = true) := by
  have hm0 : ¬ m = 0 := by omega
  have hn1 : ¬ m ≤ 1 := by omega
  have harith2 : m + 2 - 1 = m + 1 := by omega
  have hsolve : solveTsp dist m =
      match (selectBest (fun p => tspCost dist m p) (tspPerms m)).2 with
      | none => none
      | some p => some (p.map (fun i => i - 1)) := by
    simp only [solveTsp, hm0, if_false, Nat.add_sub_cancel, harith2,
      List.length_map, List.length_range]
    rw [if_neg hn1, if_pos h7]
    rfl
  cases hsel : (selectBest (fun p => tspCost dist m p) (tspPerms m)).2 with
  | none =>
    obtain ⟨p, hp, hpne⟩ := hfin
    exact absurd ((selectBest_none_iff _ _).mp hsel p hp) hpne
  | some q =>
    obtain ⟨hfinq, ⟨pre, post, hdecomp, hpre⟩, hmin⟩ :=
      selectBest_some_spec (fun p => tspCost dist m p) (tspPerms m) q hsel
    have hqmem : q ∈ tspPerms m := by
      rw [hdecomp]
      exact List.mem_append_right _ (List.mem_cons_self _ _)
    refine ⟨q, hqmem, ?_, permsAll_sound _ q hqmem, ?_, ⟨pre, post, hdecomp, hpre⟩⟩
    · rw [hsolve, hsel]
    · intro p hp
      exact hmin p (permsAll_complete _ p hp)

/-- C4 witness: with 2 stops and a matrix that makes start → w2 → w1 → end
the unique cheap tour, the solver returns the stop order `[1, 0]`, which is
minimal and first-encountered. -/
theorem solveTsp_brute_force_first_minimum_witness :
    ∃ q ∈ tspPerms 2,
      solveTsp exC4Dist 2 = some (q.map (fun i => i - 1)) ∧
      q.Perm (tspIdxs 2) ∧
      (∀ p, p.Perm (tspIdxs 2) →
        EW.blt (tspCost exC4Dist 2 p) (tspCost exC4Dist 2 q) = false) ∧
      (∃ pre post, tspPerms 2 = pre ++ q :: post ∧
        ∀ p ∈ pre, EW.blt (tspCost exC4Dist 2 q) (tspCost exC4Dist 2 p) = true) :=
  solveTsp_brute_force_first_minimum exC4Dist 2 (by decide) (by decide)
    ⟨[1, 2], by with_unfolding_all decide, by with_unfolding_all decide⟩
